import Mathlib

/-!
# Verification of the sccs2svn history-reconstruction pipeline

A shallow embedding of `src/sccs2svn.py`: the change-record data model, the
commit-grouping engine (`run`, lines 391-399), the chronological sort
(`deltaSort`, `versions.sort`), and the migration applier
(`SVNInterface.add`, `propertyUpdate`, `idKeyUpdate`, `_addDirectories`),
together with proofs about them.

External effects are embedded as data: calls into the Subversion repository
layer become a trace of `SVNEvent` values, the per-delta `sccs get`
subprocess output becomes an oracle function `contents : SCCSDelta → String`,
and wall-clock time (`time.localtime()`) becomes an explicit `now` argument.
-/

set_option linter.unusedVariables false

/-- A change in the SCCS repository (`class SCCSDelta`, lines 78-99).  The
`date` field holds the numeric epoch value `time.mktime(self.date)` in
seconds: timestamps in the source are second-resolution `time.struct_time`
tuples, and both `deltaSort` and `SCCSDelta.match` compare them only through
`time.mktime`. -/
structure SCCSDelta where
  pathname : String
  version : String
  author : String
  date : Int
  comment : String
deriving DecidableEq, Inhabited, Repr

/-- Translation of `SCCSDelta.match` (lines 91-99): `self` is the candidate
record and `otherDelta` the most recently appended record of the open group.
True iff author and comment agree, the pathname differs, and the timestamps
are strictly less than 10 seconds apart.  (Named `matchDelta` because `match`
is a Lean keyword.) -/
def SCCSDelta.matchDelta (self otherDelta : SCCSDelta) : Bool :=
  if self.author = otherDelta.author ∧ self.comment = otherDelta.comment ∧
      self.pathname ≠ otherDelta.pathname then
    if |self.date - otherDelta.date| < 10 then true else false
  else false

/-- Translation of `deltaSort` (lines 331-337): the comparison function handed
to Python's `list.sort`, comparing the `time.mktime` values of the two dates. -/
def deltaSort (deltaOne deltaTwo : SCCSDelta) : Int :=
  if deltaOne.date < deltaTwo.date then -1
  else if deltaOne.date > deltaTwo.date then 1
  else 0

/-- In a stable comparison sort an element `a` may be placed before `b`
exactly when `deltaSort a b ≤ 0`. -/
def deltaLE (a b : SCCSDelta) : Prop := deltaSort a b ≤ 0

instance : DecidableRel deltaLE := fun a b =>
  inferInstanceAs (Decidable (deltaSort a b ≤ 0))

/-- Model of `versions.sort(deltaSort)` (line 381): Python's `list.sort` is a
stable comparison sort (guaranteed stable since Python 2.3, which the script
requires), embedded as a stable insertion sort over the `deltaSort`
comparator: an earlier element `a` stays before a later element `b` whenever
`deltaSort a b ≤ 0`. -/
def sortVersions (l : List SCCSDelta) : List SCCSDelta :=
  List.insertionSort deltaLE l

/-- One iteration of the delta-merging loop of `run` (lines 394-399):
`merged` is `mergedVersions` and `v` is `versions[i]`.  If `v` matches the
last record of the last group (`mergedVersions[-1][-1]`) it is appended to
that group, otherwise a fresh one-record group is appended.  The two `none`
branches are unreachable along `run` (`mergedVersions` is seeded with one
one-record group and groups never shrink). -/
def mergeStep (merged : List (List SCCSDelta)) (v : SCCSDelta) : List (List SCCSDelta) :=
  match merged.getLast? with
  | some g =>
    match g.getLast? with
    | some last =>
      if v.matchDelta last then merged.dropLast ++ [g ++ [v]]
      else merged ++ [[v]]
    | none => merged ++ [[v]]
  | none => [[v]]

/-- Translation of the grouping step of `run` (lines 391-399): seed
`mergedVersions = [[versions[0]]]`, then run the loop body for every index
`i = 0, ..., len(versions) - 1` (the loop really does start at `i = 0`, so
`versions[0]` is processed against the seed copy of itself).  On the empty
list `run` never reaches this code (it exits at line 389). -/
def mergeVersions (versions : List SCCSDelta) : List (List SCCSDelta) :=
  match versions with
  | [] => []
  | v0 :: _ => versions.foldl mergeStep [[v0]]

/-! ## Path and string helpers

The script manipulates paths with `os.path.dirname`, `os.path.basename`,
`str.replace(old, new, 1)` and regular expressions.  These are embedded as
executable functions over the character list `String.data`. -/

/-- Model of `posixpath.dirname`: everything up to the final `/`, with
trailing slashes stripped unless the head consists only of slashes. -/
def pyDirnameAux (p : List Char) : List Char :=
  let a := p.reverse.dropWhile (fun c => c ≠ '/')
  if a = [] then []
  else if a.all (fun c => c = '/') then a.reverse
  else (a.dropWhile (fun c => c = '/')).reverse

/-- Model of `os.path.dirname` on POSIX paths. -/
def pyDirname (p : String) : String := ⟨pyDirnameAux p.data⟩

/-- Model of `os.path.basename`: everything after the final `/`. -/
def pyBasename (p : String) : String := ⟨(p.data.reverse.takeWhile (fun c => c ≠ '/')).reverse⟩

/-- Model of Python's `s.replace(pat, repl, 1)`: replace the leftmost
occurrence of `pat`, if any.  (For the empty pattern Python inserts `repl`
once at the start; the script only uses non-empty patterns.) -/
def replaceFirstAux (pat repl : List Char) : List Char → List Char
  | [] => if pat.isPrefixOf ([] : List Char) then repl else []
  | c :: rest =>
    if pat.isPrefixOf (c :: rest) then repl ++ (c :: rest).drop pat.length
    else c :: replaceFirstAux pat repl rest

/-- Model of Python's `s.replace(pat, repl, 1)` on strings. -/
def replaceFirst (s pat repl : String) : String := ⟨replaceFirstAux pat.data repl.data s.data⟩

/-- Model of `re.sub` for a plain (regex-metacharacter-free) pattern:
replace every non-overlapping occurrence, scanning left to right.  The fuel
argument is the length of the string being scanned. -/
def replaceAllAux (pat repl : List Char) : Nat → List Char → List Char
  | _, [] => []
  | 0, s => s
  | fuel + 1, c :: rest =>
    if pat ≠ [] ∧ pat.isPrefixOf (c :: rest) then
      repl ++ replaceAllAux pat repl fuel ((c :: rest).drop pat.length)
    else c :: replaceAllAux pat repl fuel rest

/-- Replace every occurrence of the plain pattern `pat` by `repl`. -/
def replaceAll (s pat repl : String) : String :=
  ⟨replaceAllAux pat.data repl.data s.data.length s.data⟩

/-- A Python 2 `\s` whitespace character (`re.UNICODE` is off). -/
def isWS (c : Char) : Bool :=
  c = ' ' ∨ c = '\t' ∨ c = '\n' ∨ c = '\r' ∨ c = '\x0b' ∨ c = '\x0c'

/-- If the regex `%W%(\s+)%G%` matches at the head of `s`, the length of the
match (the `\s+` is effectively maximal-munch because `%` is not a whitespace
character), else `none`. -/
def wgMatchLen (s : List Char) : Option Nat :=
  if ['%', 'W', '%'].isPrefixOf s then
    let after := s.drop 3
    let ws := after.takeWhile isWS
    if ws ≠ [] ∧ ['%', 'G', '%'].isPrefixOf (after.drop ws.length) then
      some (3 + ws.length + 3)
    else none
  else none

/-- Model of `re.sub("%W%(\s+)%G%", "$Id:$", input)`: replace every
occurrence of `%W%`, one or more whitespace characters, `%G%`. -/
def subWGAux : Nat → List Char → List Char
  | _, [] => []
  | 0, s => s
  | fuel + 1, c :: rest =>
    match wgMatchLen (c :: rest) with
    | some n => "$Id:$".data ++ subWGAux fuel ((c :: rest).drop n)
    | none => c :: subWGAux fuel rest

/-- Translation of `keywordSubstitution` (lines 71-76): rewrite SCCS keyword
markers to Subversion keywords, in the order the three `re.sub` calls run. -/
def keywordSubstitution (input : String) : String :=
  let replacement := String.mk (subWGAux input.data.length input.data)
  let replacement := replaceAll replacement "%W%" "$URL:$"
  replaceAll replacement "%G%" "$LastChangedDate:$"

/-- Does `s` contain `pat` as a contiguous substring? (Used for the `.*pm`
alternative of the `isTextFilename` regex, which `re.match` anchors only at
the start, so it just requires `pm` somewhere in the string.) -/
def listContains (pat : List Char) : List Char → Bool
  | [] => pat.isPrefixOf ([] : List Char)
  | c :: rest => pat.isPrefixOf (c :: rest) || listContains pat rest

/-- Translation of `isTextFilename` (lines 66-69).  `re.match` of the
alternation `.*pm|.*pl$|.*\.C$|.*\.h$|.*\.hpp$|.*\.inc$|.*\.c$|.*\.cpp$|
.*\.java$|.*\.xml$|.*\.asm$|.*\.s$|.*\.S$|.*akefile$` succeeds iff the
filename contains `pm` (the first alternative has no `$`) or ends with one of
the listed suffixes. -/
def isTextFilename (filename : String) : Bool :=
  listContains "pm".data filename.data ||
  ["pl", ".C", ".h", ".hpp", ".inc", ".c", ".cpp",
   ".java", ".xml", ".asm", ".s", ".S", "akefile"].any
    (fun suf => List.isSuffixOf suf.data filename.data)

/-- Translation of `SCCSDelta.getFilename` (lines 104-108): the basename of
the pathname with the leading `s.` stripped (`filename[2:]`). -/
def SCCSDelta.getFilename (d : SCCSDelta) : String := ⟨(pyBasename d.pathname).data.drop 2⟩

/-- Translation of `SCCSDelta.getRepositoryName` (lines 110-113), with the
process-wide `SCCSDelta.rootDirectory` passed explicitly as `root`:
`pathname.replace("SCCS/s.", "", 1).replace(root, "", 1)`. -/
def getRepositoryName (root : String) (d : SCCSDelta) : String :=
  replaceFirst (replaceFirst d.pathname "SCCS/s." "") root ""

/-- Translation of `SCCSDelta.getDirectory` (lines 120-124):
`os.path.dirname(os.path.dirname(pathname.replace(root, "", 1)))`. -/
def getDirectory (root : String) (d : SCCSDelta) : String :=
  pyDirname (pyDirname (replaceFirst d.pathname root ""))

/-- A path that does not begin with two slashes.  `posixpath.dirname` keeps
an all-slash head intact, so on a path beginning with `//` the parent chain
gets stuck on `"//"` and the `while` loop of `_directoriesToAdd` never
terminates; on every other path each `dirname` step strictly shortens the
path.  (POSIX reserves exactly the two-leading-slash form as
implementation-defined, which is why `dirname` preserves it.) -/
def goodPath (p : String) : Bool := ! (p.data.take 2 == ['/', '/'])

/-! ## The Subversion interface

Calls into the Subversion repository layer are embedded as a trace of
events.  Each transaction in the source is opened, written and committed
inside one pool scope, never interleaved with another. -/

/-- One call against the Subversion repository layer. -/
inductive SVNEvent where
  /-- `_revisionSetup`: `svn_repos_fs_begin_txn_for_commit` with the given
  author and log message. -/
  | beginTxn (author comment : String)
  /-- `fs.make_dir` inside the currently open transaction. -/
  | makeDir (dir : String)
  /-- `fs.make_file` inside the currently open transaction. -/
  | makeFile (path : String)
  /-- `fs.apply_textdelta` plus `svn_txdelta_send_string` on `path`. -/
  | sendText (path : String)
  /-- `fs.change_node_prop` on `path`. -/
  | changeNodeProp (path prop value : String)
  /-- `_commit`: set the two date revision properties to `date` and commit. -/
  | commitTxn (date : Int)
deriving DecidableEq, Repr

/-- The mutable state of `SVNInterface` (plus the committed filesystem paths
that `fs.check_path` consults): `addedDirectories` is the process-wide memo
of directories already created (seeded with `"/"`, line 148), and `files`
the set of file paths already created by `fs.make_file`. -/
structure SVNState where
  addedDirectories : List String
  files : List String
deriving DecidableEq, Repr

/-- The state of a fresh `SVNInterface` (constructor, lines 139-148). -/
def initialState : SVNState := ⟨["/"], []⟩

/-- The `while directoryName and directoryName != "/"` loop of
`_directoriesToAdd` (lines 176-179): climb the parent chain of
`directoryName`, prepending (`insert(0, ...)`) every directory not yet in
the `added` memo onto `acc`.  The fuel bounds the number of iterations; with
`dir.length + 1` units it is exhausted only on the `//`-headed paths on
which the Python loop diverges. -/
def dirLoop : Nat → String → List String → List String → List String
  | 0, _, _, acc => acc
  | fuel + 1, directoryName, added, acc =>
    if directoryName = "" ∨ directoryName = "/" then acc
    else
      dirLoop fuel (pyDirname directoryName) added
        (if directoryName ∈ added then acc else directoryName :: acc)

/-- Translation of `SVNInterface._directoriesToAdd` (lines 172-180). -/
def directoriesToAdd (root : String) (added : List String) (d : SCCSDelta) : List String :=
  dirLoop ((getDirectory root d).length + 1) (getDirectory root d) added []

/-- The full parent chain the `_directoriesToAdd` loop visits for one delta,
ignoring the memo (the memo only filters what is collected, not the
traversal). -/
def dirChainList : Nat → String → List String
  | 0, _ => []
  | fuel + 1, dir =>
    if dir = "" ∨ dir = "/" then []
    else dir :: dirChainList fuel (pyDirname dir)

/-- Every directory that must exist before the file of `d` can be written:
the parent chain of `getDirectory` up to (and excluding) `"/"`. -/
def requiredDirs (root : String) (d : SCCSDelta) : List String :=
  dirChainList ((getDirectory root d).length + 1) (getDirectory root d)

/-- Translation of `SVNInterface._addDirectories` (lines 182-199): if the
delta needs directories, open one transaction as the migration user, create
them parent-first while recording them in the memo, and commit it with the
delta's date. -/
def addDirectoriesOne (root userid : String) (st : SVNState) (d : SCCSDelta) :
    SVNState × List SVNEvent :=
  let toAdd := directoriesToAdd root st.addedDirectories d
  if toAdd = [] then (st, [])
  else
    (⟨st.addedDirectories ++ toAdd, st.files⟩,
      SVNEvent.beginTxn userid "Automatic directory addition" ::
        toAdd.map SVNEvent.makeDir ++ [SVNEvent.commitTxn d.date])

/-- The first `for delta in new_deltas` loop of `add` (lines 216-217): make
sure every directory needed by the batch exists before the content
transaction is opened. -/
def addDirPhase (root userid : String) : SVNState → List SCCSDelta →
    SVNState × List SVNEvent
  | st, [] => (st, [])
  | st, delta :: rest =>
    let step := addDirectoriesOne root userid st delta
    let r := addDirPhase root userid step.1 rest
    (r.1, step.2 ++ r.2)

/-- The second `for delta in new_deltas` loop of `add` (lines 224-236): for
each delta, `fs.check_path`; `fs.make_file` when the path does not exist
yet; then `apply_textdelta`/`send_string` of the delta's contents.  (The
`EnvironmentError` raised when the path already exists as a directory aborts
the whole run and is not modelled.) -/
def fileOpsPhase (root : String) : SVNState → List SCCSDelta →
    SVNState × List SVNEvent
  | st, [] => (st, [])
  | st, delta :: rest =>
    let subversionPath := getRepositoryName root delta
    if subversionPath ∈ st.files then
      let r := fileOpsPhase root st rest
      (r.1, SVNEvent.sendText subversionPath :: r.2)
    else
      let r := fileOpsPhase root ⟨st.addedDirectories, st.files ++ [subversionPath]⟩ rest
      (r.1, SVNEvent.makeFile subversionPath :: SVNEvent.sendText subversionPath :: r.2)

/-- One iteration of the `while len(deltas)` loop of `add` (lines 208-240),
i.e. one batch `new_deltas` of at most 1000 deltas: the directory phase, then
one content transaction opened with `new_deltas[0].author` and
`new_deltas[0].comment` (lines 220-222) and committed with `delta.getDate()`
where `delta` is the loop variable left over from the second `for` loop --
the batch's last record (line 239). -/
structure BatchTrace where
  /-- Events of the directory-adding transactions of the batch. -/
  dirTxns : List SVNEvent
  /-- The `addedDirectories` memo at the moment the content transaction begins. -/
  memoAtTxn : List String
  /-- The content transaction's author, `new_deltas[0].author`. -/
  txnAuthor : String
  /-- The content transaction's log message, `new_deltas[0].comment`. -/
  txnComment : String
  /-- The `make_file`/`send` events of the content transaction. -/
  fileEvents : List SVNEvent
  /-- The date committed on the content revision, `new_deltas[-1].date`. -/
  commitDate : Int
deriving DecidableEq, Repr, Inhabited

/-- The flat event trace of one batch. -/
def BatchTrace.events (bt : BatchTrace) : List SVNEvent :=
  bt.dirTxns ++ SVNEvent.beginTxn bt.txnAuthor bt.txnComment ::
    bt.fileEvents ++ [SVNEvent.commitTxn bt.commitDate]

/-- The slicing performed by the `while len(xs)` loops of `add`,
`propertyUpdate` and `idKeyUpdate`: successive `xs[:n]` slices.  The fuel is
instantiated with `xs.length`, which always suffices for `n ≥ 1`. -/
def splitBatchesAux (n : Nat) : Nat → List α → List (List α)
  | 0, _ => []
  | fuel + 1, l => if l.isEmpty then [] else l.take n :: splitBatchesAux n fuel (l.drop n)

/-- Split a list into successive batches of at most `n` elements. -/
def splitBatches (n : Nat) (l : List α) : List (List α) :=
  splitBatchesAux n l.length l

/-- Translation of `SVNInterface.add` (lines 201-240), processing batches of
at most 1000 deltas.  Returns the final interface state and one `BatchTrace`
per `while` iteration.  The fuel is instantiated with `deltas.length`. -/
def addAux (root userid : String) : Nat → SVNState → List SCCSDelta →
    SVNState × List BatchTrace
  | 0, st, _ => (st, [])
  | fuel + 1, st, deltas =>
    if deltas = [] then (st, [])
    else
      let new_deltas := deltas.take 1000
      let p1 := addDirPhase root userid st new_deltas
      let p2 := fileOpsPhase root p1.1 new_deltas
      let bt : BatchTrace :=
        ⟨p1.2, p1.1.addedDirectories, (new_deltas.head!).author, (new_deltas.head!).comment,
          p2.2, (new_deltas.getLast!).date⟩
      let rest := addAux root userid fuel p2.1 (deltas.drop 1000)
      (rest.1, bt :: rest.2)

/-- `SVNInterface.add` on a set of deltas (one logical commit group). -/
def add (root userid : String) (st : SVNState) (deltas : List SCCSDelta) :
    SVNState × List BatchTrace :=
  addAux root userid deltas.length st deltas

/-- The events of one batch of `propertyUpdate` (lines 269-292): one
transaction as the migration user; every text filename gets the
`svn:keywords` and `svn:eol-style` properties; committed at the current
wall-clock time `now` (`subversionTime(time.localtime())`). -/
def propertyBatch (userid : String) (now : Int) (new_filenames : List String) :
    List SVNEvent :=
  SVNEvent.beginTxn userid "Automated property set" ::
    (new_filenames.map (fun filename =>
      if isTextFilename filename then
        [SVNEvent.changeNodeProp filename "svn:keywords"
           "LastChangedDate LastChangedRevision LastChangedBy HeadURL Id",
         SVNEvent.changeNodeProp filename "svn:eol-style" "native"]
      else [])).flatten
    ++ [SVNEvent.commitTxn now]

/-- Translation of `SVNInterface.propertyUpdate` (lines 258-292): batches of
at most 3000 filenames, each committed independently. -/
def propertyUpdate (userid : String) (now : Int) (filenames : List String) :
    List SVNEvent :=
  ((splitBatches 3000 filenames).map (propertyBatch userid now)).flatten

/-- The events of one batch of `idKeyUpdate` (lines 306-328): one transaction
as the migration user; for each text file, fetch the contents with keyword
expansion suppressed (`getFileContents("-k")`, embedded as the oracle
`contents`), apply `keywordSubstitution`, and send the rewritten text only
if it changed; committed with `delta.getDate()` of the batch's last delta
(the leftover loop variable, line 327). -/
def idKeyBatch (root userid : String) (contents : SCCSDelta → String)
    (new_deltas : List SCCSDelta) : List SVNEvent :=
  SVNEvent.beginTxn userid "Automated keyword replacement" ::
    (new_deltas.map (fun delta =>
      if isTextFilename delta.getFilename then
        let originalContents := contents delta
        let updatedContents := keywordSubstitution originalContents
        if originalContents ≠ updatedContents then
          [SVNEvent.sendText (getRepositoryName root delta)]
        else []
      else [])).flatten
    ++ [SVNEvent.commitTxn ((new_deltas.getLast!).date)]

/-- Translation of `SVNInterface.idKeyUpdate` (lines 294-328): batches of at
most 1000 deltas, each committed independently. -/
def idKeyUpdate (root userid : String) (contents : SCCSDelta → String)
    (deltas : List SCCSDelta) : List SVNEvent :=
  ((splitBatches 1000 deltas).map (idKeyBatch root userid contents)).flatten

/-- One `filenames[i.getRepositoryName()] = i` assignment (line 410): Python
dict insertion overwrites the value of an existing key and appends a new key
(the key iteration order of an unmutated `dict` is consistent between
`keys()` and `values()`, which is all `run` relies on). -/
def dictInsert (m : List (String × SCCSDelta)) (k : String) (v : SCCSDelta) :
    List (String × SCCSDelta) :=
  if (m.map Prod.fst).contains k then
    m.map (fun p => if p.1 = k then (k, v) else p)
  else m ++ [(k, v)]

/-- The `filenames` dict built by `run` (lines 408-410): for every record of
the sorted sequence, map its repository name to the record, the last
assignment per key winning. -/
def buildFilenames (root : String) (versions : List SCCSDelta) :
    List (String × SCCSDelta) :=
  versions.foldl (fun m d => dictInsert m (getRepositoryName root d) d) []

/-- The `for i in mergedVersions: interface.add(i)` loop of `run`
(lines 404-405). -/
def runAdds (root userid : String) : SVNState → List (List SCCSDelta) →
    SVNState × List BatchTrace
  | st, [] => (st, [])
  | st, g :: gs =>
    let r := add root userid st g
    let rest := runAdds root userid r.1 gs
    (rest.1, r.2 ++ rest.2)

/-- Translation of `run` (lines 376-414), with the filesystem walk abstracted
into the unordered record collection `walked` it produces, wall-clock time as
`now`, and the `sccs get -k` subprocess as the oracle `contents`.  Sort, then
fail with exit status 1 if nothing was found (lines 387-389, before any
repository write), otherwise group, replay every group, and run the property
and keyword sweeps over the deduplicated filenames dict. -/
def run (root userid : String) (now : Int) (contents : SCCSDelta → String)
    (walked : List SCCSDelta) :
    Except String (List (List SCCSDelta) × List SVNEvent) :=
  let versions := sortVersions walked
  if versions.length = 0 then
    Except.error "Unable to read any SCCS versions; nothing to convert"
  else
    let mergedVersions := mergeVersions versions
    let r := runAdds root userid initialState mergedVersions
    let filenames := buildFilenames root versions
    Except.ok (mergedVersions,
      (r.2.map BatchTrace.events).flatten
        ++ propertyUpdate userid now (filenames.map Prod.fst)
        ++ idKeyUpdate root userid contents (filenames.map Prod.snd))

/-- The event trace of a successful run (empty if the run failed). -/
def runEvents (root userid : String) (now : Int) (contents : SCCSDelta → String)
    (walked : List SCCSDelta) : List SVNEvent :=
  match run root userid now contents walked with
  | Except.ok r => r.2
  | Except.error _ => []

/-- The directory arguments of the `fs.make_dir` calls of a trace. -/
def makeDirArgs (evs : List SVNEvent) : List String :=
  evs.filterMap (fun e =>
    match e with
    | SVNEvent.makeDir d => some d
    | _ => none)

/-! ## Lemmas about the grouping engine -/

/-- Characterization of the match predicate. -/
lemma matchDelta_iff (a g : SCCSDelta) :
    a.matchDelta g = true ↔
      a.author = g.author ∧ a.comment = g.comment ∧ a.pathname ≠ g.pathname ∧
        |a.date - g.date| < 10 := by
  unfold SCCSDelta.matchDelta
  split_ifs with h1 h2 <;> simp_all

/-- One merge step appends the processed record to the flattened output. -/
lemma mergeStep_flatten (merged : List (List SCCSDelta)) (v : SCCSDelta) :
    (mergeStep merged v).flatten = merged.flatten ++ [v] := by
  induction merged using List.reverseRecOn with
  | nil => simp [mergeStep]
  | append_singleton ms g _ =>
    induction g using List.reverseRecOn with
    | nil => simp [mergeStep, List.getLast?_concat]
    | append_singleton gs last _ =>
      simp only [mergeStep, List.getLast?_concat, List.dropLast_concat]
      split <;> simp

/-- The merge loop appends every processed record to the flattened output. -/
lemma foldl_mergeStep_flatten (l : List SCCSDelta) :
    ∀ init : List (List SCCSDelta), (l.foldl mergeStep init).flatten = init.flatten ++ l := by
  induction l with
  | nil => simp
  | cons v vs ih =>
    intro init
    simp [List.foldl_cons, ih, mergeStep_flatten]

/-- The grouping step emits the seed copy of the first record and then every
record of the input once: its flattened output is `v0 :: v0 :: vs`. -/
lemma mergeVersions_flatten (v0 : SCCSDelta) (vs : List SCCSDelta) :
    (mergeVersions (v0 :: vs)).flatten = v0 :: v0 :: vs := by
  show ((v0 :: vs).foldl mergeStep [[v0]]).flatten = v0 :: v0 :: vs
  rw [foldl_mergeStep_flatten]
  simp

/-- Every record of every output group is a record of the input. -/
lemma mem_of_mem_mergeVersions {versions g : List SCCSDelta} {x : SCCSDelta}
    (hg : g ∈ mergeVersions versions) (hx : x ∈ g) : x ∈ versions := by
  cases versions with
  | nil => simp [mergeVersions] at hg
  | cons v0 vs =>
    have hmem : x ∈ (mergeVersions (v0 :: vs)).flatten := by
      exact List.mem_flatten.mpr ⟨g, hg, hx⟩
    rw [mergeVersions_flatten] at hmem
    simp only [List.mem_cons] at hmem
    rcases hmem with h | h | h
    · simp [h]
    · simp [h]
    · simp [h]

/-- If every matching pair of records is `R`-related (new record to the
right), one merge step preserves `Chain' R` of every group. -/
lemma mergeStep_chain {R : SCCSDelta → SCCSDelta → Prop}
    (hR : ∀ a b : SCCSDelta, a.matchDelta b = true → R b a)
    (merged : List (List SCCSDelta)) (v : SCCSDelta)
    (h : ∀ g ∈ merged, List.Chain' R g) :
    ∀ g ∈ mergeStep merged v, List.Chain' R g := by
  induction merged using List.reverseRecOn with
  | nil => simp [mergeStep]
  | append_singleton ms g0 _ =>
    induction g0 using List.reverseRecOn with
    | nil =>
      intro g hg
      simp only [mergeStep, List.getLast?_concat] at hg
      rcases List.mem_append.mp hg with h1 | h1
      · exact h g h1
      · simp only [List.mem_singleton] at h1
        simp [h1]
    | append_singleton gs last _ =>
      intro g hg
      simp only [mergeStep, List.getLast?_concat, List.dropLast_concat] at hg
      split at hg
      case isTrue hmatch =>
        rcases List.mem_append.mp hg with h1 | h1
        · exact h g (List.mem_append.mpr (Or.inl h1))
        · simp only [List.mem_singleton] at h1
          subst h1
          have hchain : List.Chain' R (gs ++ [last]) :=
            h (gs ++ [last]) (List.mem_append.mpr (Or.inr (List.mem_singleton.mpr rfl)))
          refine List.Chain'.append hchain (List.chain'_singleton v) ?_
          intro x hx y hy
          have hx' : last = x := by simpa using hx
          have hy' : v = y := by simpa using hy
          subst hx'
          subst hy'
          exact hR _ _ hmatch
      case isFalse =>
        rcases List.mem_append.mp hg with h1 | h1
        · exact h g h1
        · simp only [List.mem_singleton] at h1
          simp [h1]

/-- If every matching pair is `R`-related, every group produced by the merge
loop is an `R`-chain. -/
lemma foldl_mergeStep_chain {R : SCCSDelta → SCCSDelta → Prop}
    (hR : ∀ a b : SCCSDelta, a.matchDelta b = true → R b a) (l : List SCCSDelta) :
    ∀ init : List (List SCCSDelta), (∀ g ∈ init, List.Chain' R g) →
      ∀ g ∈ l.foldl mergeStep init, List.Chain' R g := by
  induction l with
  | nil => intro init h; simpa using h
  | cons v vs ih =>
    intro init h
    exact ih (mergeStep init v) (mergeStep_chain hR init v h)

/-- Every group output by the grouping step is a chain under any relation
implied by the match predicate (applied right-to-left: each appended record
matched the record before it). -/
lemma mergeVersions_chain {R : SCCSDelta → SCCSDelta → Prop}
    (hR : ∀ a b : SCCSDelta, a.matchDelta b = true → R b a)
    (versions : List SCCSDelta) : ∀ g ∈ mergeVersions versions, List.Chain' R g := by
  cases versions with
  | nil => simp [mergeVersions]
  | cons v0 vs =>
    have : ∀ g ∈ [[v0]], List.Chain' R g := by simp
    exact foldl_mergeStep_chain hR (v0 :: vs) [[v0]] this

/-- One merge step never produces an empty group. -/
lemma mergeStep_ne_nil (merged : List (List SCCSDelta)) (v : SCCSDelta)
    (h : ∀ g ∈ merged, g ≠ []) : ∀ g ∈ mergeStep merged v, g ≠ [] := by
  induction merged using List.reverseRecOn with
  | nil => simp [mergeStep]
  | append_singleton ms g0 _ =>
    induction g0 using List.reverseRecOn with
    | nil =>
      intro g hg
      simp only [mergeStep, List.getLast?_concat] at hg
      rcases List.mem_append.mp hg with h1 | h1
      · exact h g h1
      · simp only [List.mem_singleton] at h1
        simp [h1]
    | append_singleton gs last _ =>
      intro g hg
      simp only [mergeStep, List.getLast?_concat, List.dropLast_concat] at hg
      split at hg
      case isTrue =>
        rcases List.mem_append.mp hg with h1 | h1
        · exact h g (List.mem_append.mpr (Or.inl h1))
        · simp only [List.mem_singleton] at h1
          simp [h1]
      case isFalse =>
        rcases List.mem_append.mp hg with h1 | h1
        · exact h g h1
        · simp only [List.mem_singleton] at h1
          simp [h1]

/-- No group output by the grouping step is empty. -/
lemma mergeVersions_ne_nil {versions g : List SCCSDelta}
    (hg : g ∈ mergeVersions versions) : g ≠ [] := by
  cases versions with
  | nil => simp [mergeVersions] at hg
  | cons v0 vs =>
    have base : ∀ g ∈ [[v0]], g ≠ ([] : List SCCSDelta) := by simp
    have main : ∀ (l : List SCCSDelta) (init : List (List SCCSDelta)), (∀ g ∈ init, g ≠ []) →
        ∀ g ∈ l.foldl mergeStep init, g ≠ [] := by
      intro l
      induction l with
      | nil => intro init h; simpa using h
      | cons w ws ih =>
        intro init h
        exact ih (mergeStep init w) (mergeStep_ne_nil init w h)
    exact main (v0 :: vs) [[v0]] base g hg

/-! ## Claims C1 - C4 -/

/-- A single change record, the smallest input showing the merge loop's
double-processing of the first sorted record. -/
def c1delta : SCCSDelta := ⟨"/r/a/SCCS/s.f", "1.1", "u", 0, "m"⟩

/-- Claim C1 (code bug): the grouping step does NOT preserve the input
record multiset.  `mergedVersions` is seeded with `[[versions[0]]]` but the
loop then starts at `i = 0`, so `versions[0]` is matched against itself,
fails the `pathname !=` test, and is appended again as a fresh group: on the
one-record input the output is two groups both holding that record, and the
flattened output is not the input.  The first sorted record therefore
appears in exactly two groups, not one. -/
theorem C1_grouping_duplicates_first_record :
    mergeVersions [c1delta] = [[c1delta], [c1delta]] ∧
      (mergeVersions [c1delta]).flatten ≠ [c1delta] := by
  decide

/-- Records for C2: same author, comment and 10-second window throughout,
with the first and third sharing the pathname `f1`. -/
def c2r1 : SCCSDelta := ⟨"f1", "1.1", "u", 0, "m"⟩

/-- Second C2 record, path `f2`, 5 seconds later. -/
def c2r2 : SCCSDelta := ⟨"f2", "1.1", "u", 5, "m"⟩

/-- Third C2 record, path `f1` again, 9 seconds after the first. -/
def c2r3 : SCCSDelta := ⟨"f1", "1.2", "u", 9, "m"⟩

/-- Claim C2 is false as stated: the match predicate only compares a
candidate with the most recently appended record, so the same source path
can reappear in a group non-adjacently.  With records on paths `f1`, `f2`,
`f1` at times 0, 5, 9, the group `[c2r1, c2r2, c2r3]` is produced and holds
two distinct records with the same source path `f1`. -/
theorem C2_path_repeat_counterexample :
    ∃ g ∈ mergeVersions [c2r1, c2r2, c2r3],
      ∃ a ∈ g, ∃ b ∈ g, a ≠ b ∧ a.pathname = b.pathname := by
  refine ⟨[c2r1, c2r2, c2r3], by decide, c2r1, by decide, c2r3, by decide, by decide, by decide⟩

/-- Claim C2, amended to what the match predicate actually enforces: within
every output group, no two ADJACENT records share the same source path (each
appended record matched the record appended just before it, and the match
predicate requires differing pathnames). -/
theorem C2_adjacent_paths_distinct (versions g : List SCCSDelta)
    (hg : g ∈ mergeVersions versions) :
    List.Chain' (fun a b => a.pathname ≠ b.pathname) g := by
  refine mergeVersions_chain ?_ versions g hg
  intro a b hab
  have h := (matchDelta_iff a b).mp hab
  exact fun hcontra => h.2.2.1 hcontra.symm

/-- Witness for C2's amended theorem at the counterexample input: the group
`[c2r1, c2r2, c2r3]` is in the output and its adjacent paths differ. -/
theorem C2_adjacent_paths_distinct_witness :
    [c2r1, c2r2, c2r3] ∈ mergeVersions [c2r1, c2r2, c2r3] ∧
      List.Chain' (fun a b => a.pathname ≠ b.pathname) [c2r1, c2r2, c2r3] :=
  ⟨by decide, C2_adjacent_paths_distinct [c2r1, c2r2, c2r3] [c2r1, c2r2, c2r3] (by decide)⟩

/-- Claim C3: the match predicate between a candidate record `a` and the
last record `g` of the open group holds iff the authors agree, the comments
agree exactly, the pathnames differ, and the timestamps (as epoch seconds)
differ by strictly less than 10. -/
theorem C3_match_predicate_iff (a g : SCCSDelta) :
    a.matchDelta g = true ↔
      a.author = g.author ∧ a.comment = g.comment ∧ a.pathname ≠ g.pathname ∧
        |a.date - g.date| < 10 :=
  matchDelta_iff a g

/-- Record A of C4: time 0, author `u`, message `m`, path `f1`. -/
def c4A : SCCSDelta := ⟨"f1", "1.1", "u", 0, "m"⟩

/-- Record B of C4: time 8. -/
def c4B : SCCSDelta := ⟨"f2", "1.1", "u", 8, "m"⟩

/-- Record C of C4: time 15. -/
def c4C : SCCSDelta := ⟨"f3", "1.1", "u", 15, "m"⟩

/-- Claim C4: on records A(t=0), B(t=8), C(t=15) with one author, message
and three distinct paths, the grouping step puts all three records into one
group: A to B is 8 seconds and B to C is 7 seconds, each within the
10-second window against the most recently appended member, even though A
and C are 15 seconds apart. -/
theorem C4_transitive_chaining :
    [c4A, c4B, c4C] ∈ mergeVersions (sortVersions [c4A, c4B, c4C]) := by
  decide

/-! ## Lemmas about the chronological sort (claim C5) -/

/-- The comparator orders records by their epoch timestamps. -/
lemma deltaLE_iff (a b : SCCSDelta) : deltaLE a b ↔ a.date ≤ b.date := by
  unfold deltaLE deltaSort
  split_ifs with h1 h2 <;> constructor <;> intro h <;> omega

instance : IsTotal SCCSDelta deltaLE :=
  ⟨fun a b => by
    rw [deltaLE_iff, deltaLE_iff]
    omega⟩

instance : IsTrans SCCSDelta deltaLE :=
  ⟨fun a b c hab hbc => by
    rw [deltaLE_iff] at hab hbc ⊢
    omega⟩

/-- Inserting a record whose timestamp is `t` keeps it in front of every
record with timestamp `t` that was already in the list: the skipped records
all have strictly smaller timestamps. -/
lemma filter_orderedInsert_pos (t : Int) (a : SCCSDelta) (ha : a.date = t) :
    ∀ l : List SCCSDelta,
      (List.orderedInsert deltaLE a l).filter (fun d => d.date == t) =
        a :: l.filter (fun d => d.date == t) := by
  intro l
  induction l with
  | nil => simp [List.orderedInsert, List.filter, ha]
  | cons b l' ih =>
    by_cases hle : deltaLE a b
    · rw [List.orderedInsert_of_le _ _ hle]
      simp [List.filter_cons, ha]
    · have hbt : b.date ≠ t := by
        rw [deltaLE_iff] at hle
        omega
      simp only [List.orderedInsert, if_neg hle, List.filter_cons]
      have : (b.date == t) = false := by simpa using hbt
      simp [this, ih]

/-- Inserting a record whose timestamp is not `t` does not disturb the
records with timestamp `t`. -/
lemma filter_orderedInsert_neg (t : Int) (a : SCCSDelta) (ha : a.date ≠ t) :
    ∀ l : List SCCSDelta,
      (List.orderedInsert deltaLE a l).filter (fun d => d.date == t) =
        l.filter (fun d => d.date == t) := by
  intro l
  have hafalse : (a.date == t) = false := by simpa using ha
  induction l with
  | nil => simp [List.orderedInsert, List.filter, hafalse]
  | cons b l' ih =>
    by_cases hle : deltaLE a b
    · rw [List.orderedInsert_of_le _ _ hle]
      simp [List.filter_cons, hafalse]
    · simp only [List.orderedInsert, if_neg hle, List.filter_cons]
      rw [ih]

/-- Stability of the sort: the records carrying any fixed timestamp appear
in the sorted output in exactly their input order. -/
lemma sortVersions_filter (l : List SCCSDelta) (t : Int) :
    (sortVersions l).filter (fun d => d.date == t) = l.filter (fun d => d.date == t) := by
  induction l with
  | nil => rfl
  | cons a l' ih =>
    show ((List.insertionSort deltaLE l').orderedInsert deltaLE a).filter (fun d => d.date == t)
        = (a :: l').filter (fun d => d.date == t)
    by_cases ha : a.date = t
    · rw [filter_orderedInsert_pos t a ha]
      rw [List.filter_cons]
      have hb : (a.date == t) = true := by simpa using ha
      simp only [hb, if_pos]
      rw [show List.insertionSort deltaLE l' = sortVersions l' from rfl, ih]
    · rw [filter_orderedInsert_neg t a ha]
      rw [List.filter_cons]
      have hb : (a.date == t) = false := by simpa using ha
      simp only [hb, Bool.false_eq_true, if_false]
      rw [show List.insertionSort deltaLE l' = sortVersions l' from rfl, ih]

/-- Claim C5: the global chronological sort is by ascending timestamp and
stable: the output is pairwise ordered by timestamp, and for every
timestamp value `t` the subsequence of records carrying `t` is exactly the
input subsequence, so any two equal-timestamp records keep their relative
input (encounter) order. -/
theorem C5_sort_stable_and_ordered (l : List SCCSDelta) :
    List.Pairwise (fun a b : SCCSDelta => a.date ≤ b.date) (sortVersions l) ∧
      ∀ t : Int, (sortVersions l).filter (fun d => d.date == t) =
        l.filter (fun d => d.date == t) := by
  constructor
  · have hs : List.Sorted deltaLE (sortVersions l) :=
      List.sorted_insertionSort deltaLE l
    exact List.Pairwise.imp (fun h => (deltaLE_iff _ _).mp h) hs
  · exact sortVersions_filter l

/-! ## Claim C8: empty input -/

/-- Claim C8: when the tree walk discovers no change records, `run` reports
the empty-input condition and exits non-zero (`sys.exit(1)` at line 389)
before the grouping step and before any repository write: the result is the
error, and the emitted repository event trace is empty. -/
theorem C8_empty_input_error (root userid : String) (now : Int)
    (contents : SCCSDelta → String) :
    run root userid now contents [] =
        Except.error "Unable to read any SCCS versions; nothing to convert" ∧
      runEvents root userid now contents [] = [] := by
  constructor <;> rfl

/-! ## Lemmas about the filenames dict (claim C10) -/

/-- The keys of a dict after one assignment: unchanged when the key was
present, else the key is appended. -/
lemma dictInsert_keys (m : List (String × SCCSDelta)) (k : String) (v : SCCSDelta) :
    (dictInsert m k v).map Prod.fst =
      if (m.map Prod.fst).contains k then m.map Prod.fst else m.map Prod.fst ++ [k] := by
  unfold dictInsert
  split_ifs with h
  · rw [List.map_map]
    refine List.map_congr_left ?_
    intro p _
    by_cases hp : p.1 = k
    · simp [hp]
    · simp [hp]
  · simp

/-- Membership in a dict after one assignment. -/
lemma mem_dictInsert {m : List (String × SCCSDelta)} {k0 k : String} {v0 v : SCCSDelta}
    (h : (k0, v0) ∈ dictInsert m k v) :
    (k0 = k ∧ v0 = v) ∨ ((k0, v0) ∈ m ∧ k0 ≠ k) := by
  unfold dictInsert at h
  split_ifs at h with hc
  · rcases List.mem_map.mp h with ⟨p, hp, hpe⟩
    by_cases hpk : p.1 = k
    · simp only [hpk, if_pos] at hpe
      left
      obtain ⟨h1, h2⟩ := Prod.mk.injEq .. |>.mp hpe
      exact ⟨h1.symm, h2.symm⟩
    · simp only [hpk, if_neg, ite_false] at hpe
      right
      subst hpe
      exact ⟨hp, hpk⟩
  · rcases List.mem_append.mp h with h1 | h1
    · right
      refine ⟨h1, ?_⟩
      intro hk
      subst hk
      exact hc (List.elem_iff.mpr (List.mem_map.mpr ⟨(k0, v0), h1, rfl⟩))
    · left
      simpa using h1

/-- Keys already present survive an assignment, and the assigned key is
present afterwards. -/
lemma mem_keys_dictInsert {m : List (String × SCCSDelta)} {x k : String} {v : SCCSDelta}
    (h : x ∈ m.map Prod.fst ∨ x = k) : x ∈ (dictInsert m k v).map Prod.fst := by
  rw [dictInsert_keys]
  split_ifs with hc
  · rcases h with h1 | h1
    · exact h1
    · subst h1
      exact List.elem_iff.mp hc
  · rcases h with h1 | h1
    · exact List.mem_append.mpr (Or.inl h1)
    · subst h1
      simp

/-- Assignments never duplicate a key. -/
lemma dictInsert_keys_nodup {m : List (String × SCCSDelta)} {k : String} {v : SCCSDelta}
    (h : (m.map Prod.fst).Nodup) : ((dictInsert m k v).map Prod.fst).Nodup := by
  rw [dictInsert_keys]
  split_ifs with hc
  · exact h
  · refine List.Nodup.append h (List.nodup_singleton k) ?_
    intro x hx hk
    simp only [List.mem_singleton] at hk
    subst hk
    exact hc (List.elem_iff.mpr hx)

/-- Building the filenames dict over any suffix of assignments keeps the
keys duplicate-free. -/
lemma buildFilenames_keys_nodup (root : String) (versions : List SCCSDelta) :
    ((buildFilenames root versions).map Prod.fst).Nodup := by
  suffices h : ∀ (l : List SCCSDelta) (m : List (String × SCCSDelta)),
      (m.map Prod.fst).Nodup →
      ((l.foldl (fun m d => dictInsert m (getRepositoryName root d) d) m).map Prod.fst).Nodup by
    exact h versions [] (by simp)
  intro l
  induction l with
  | nil => intro m hm; simpa using hm
  | cons d ds ih =>
    intro m hm
    exact ih _ (dictInsert_keys_nodup hm)

/-- The record stored under a key is the last record of the assignment
sequence whose repository name is that key. -/
lemma buildFilenames_getLast (root : String) (versions : List SCCSDelta) :
    ∀ k v, (k, v) ∈ buildFilenames root versions →
      (versions.filter (fun d => getRepositoryName root d == k)).getLast? = some v := by
  induction versions using List.reverseRecOn with
  | nil => intro k v h; simp [buildFilenames] at h
  | append_singleton l d ih =>
    intro k v h
    have hb : buildFilenames root (l ++ [d]) =
        dictInsert (buildFilenames root l) (getRepositoryName root d) d := by
      unfold buildFilenames
      rw [List.foldl_append]
      rfl
    rw [hb] at h
    rcases mem_dictInsert h with ⟨hk, hv⟩ | ⟨hmem, hk⟩
    · rw [hk, hv]
      rw [List.filter_append]
      have hd : (getRepositoryName root d == getRepositoryName root d) = true := by simp
      simp [List.filter_cons, hd]
    · rw [List.filter_append]
      have hd : (getRepositoryName root d == k) = false := by
        simpa using fun hcontra => hk hcontra.symm
      simp only [List.filter_cons, hd, Bool.false_eq_true, if_false, List.filter_nil,
        List.append_nil]
      exact ih k v hmem

/-- Every record's repository name ends up among the dict keys. -/
lemma buildFilenames_complete (root : String) (versions : List SCCSDelta) :
    ∀ d ∈ versions, getRepositoryName root d ∈ (buildFilenames root versions).map Prod.fst := by
  induction versions using List.reverseRecOn with
  | nil => simp
  | append_singleton l d0 ih =>
    intro d hd
    have hb : buildFilenames root (l ++ [d0]) =
        dictInsert (buildFilenames root l) (getRepositoryName root d0) d0 := by
      unfold buildFilenames
      rw [List.foldl_append]
      rfl
    rw [hb]
    rcases List.mem_append.mp hd with h1 | h1
    · exact mem_keys_dictInsert (Or.inl (ih d h1))
    · simp only [List.mem_singleton] at h1
      subst h1
      exact mem_keys_dictInsert (Or.inr rfl)

/-! ## Claim C10 -/

/-- Claim C10: the post-pass sweeps iterate the `filenames` dict built at
lines 408-410, which deduplicates by repository path.  Its keys (the paths
handed to `propertyUpdate`) are pairwise distinct, every record's repository
path occurs among them, and the record stored under a path (handed to
`idKeyUpdate`, which fetches and rewrites that record's content) is the
record occurring LAST among the sorted records mapping to that path.  In
`run`, `versions` is the globally sorted sequence. -/
theorem C10_sweep_dedup_last_record (root : String) (versions : List SCCSDelta)
    (k : String) (v : SCCSDelta) (hkv : (k, v) ∈ buildFilenames root versions)
    (d : SCCSDelta) (hd : d ∈ versions) :
    ((buildFilenames root versions).map Prod.fst).Nodup ∧
      (versions.filter (fun x => getRepositoryName root x == k)).getLast? = some v ∧
      getRepositoryName root v = k ∧
      getRepositoryName root d ∈ (buildFilenames root versions).map Prod.fst := by
  refine ⟨buildFilenames_keys_nodup root versions, ?_, ?_, buildFilenames_complete root versions d hd⟩
  · exact buildFilenames_getLast root versions k v hkv
  · have h := buildFilenames_getLast root versions k v hkv
    have hv : v ∈ versions.filter (fun x => getRepositoryName root x == k) := by
      have := List.getLast?_eq_some_iff.mp h
      rcases this with ⟨l', hl'⟩
      rw [hl']
      simp
    have := List.of_mem_filter hv
    simpa using this

/-- Two records on the same repository path (the second one later), plus one
on another path, for the C10 witness. -/
def c10a : SCCSDelta := ⟨"/r/a/SCCS/s.f.c", "1.1", "u", 0, "m1"⟩

/-- Second revision of the same file as `c10a`. -/
def c10b : SCCSDelta := ⟨"/r/a/SCCS/s.f.c", "1.2", "u", 50, "m2"⟩

/-- A record on a different path. -/
def c10c : SCCSDelta := ⟨"/r/a/SCCS/s.g.c", "1.1", "u", 99, "m3"⟩

/-- Witness for C10: on the sorted input `[c10a, c10b, c10c]`, the dict maps
the shared path to `c10b`, the record occurring last for that path. -/
theorem C10_sweep_dedup_last_record_witness :
    (("/a/f.c", c10b) ∈ buildFilenames "/r" [c10a, c10b, c10c] ∧
        c10a ∈ [c10a, c10b, c10c]) ∧
      ((buildFilenames "/r" [c10a, c10b, c10c]).map Prod.fst).Nodup ∧
      ([c10a, c10b, c10c].filter
          (fun x => getRepositoryName "/r" x == "/a/f.c")).getLast? = some c10b ∧
      getRepositoryName "/r" c10b = "/a/f.c" ∧
      getRepositoryName "/r" c10a ∈ (buildFilenames "/r" [c10a, c10b, c10c]).map Prod.fst :=
  ⟨⟨by decide, by decide⟩,
    C10_sweep_dedup_last_record "/r" [c10a, c10b, c10c] "/a/f.c" c10b (by decide) c10a (by decide)⟩

/-! ## Lemmas about batch splitting (claims C6, C7) -/

/-- The batch slicing is fuel-insensitive once the fuel covers the list. -/
lemma splitBatchesAux_fuel {n : Nat} (hn : 1 ≤ n) :
    ∀ fuel1 fuel2 (l : List α), l.length ≤ fuel1 → l.length ≤ fuel2 →
      splitBatchesAux n fuel1 l = splitBatchesAux n fuel2 l := by
  intro fuel1
  induction fuel1 with
  | zero =>
    intro fuel2 l h1 h2
    have : l = [] := List.eq_nil_of_length_eq_zero (Nat.le_zero.mp h1)
    subst this
    cases fuel2 <;> simp [splitBatchesAux]
  | succ f1 ih =>
    intro fuel2 l h1 h2
    cases fuel2 with
    | zero =>
      have : l = [] := List.eq_nil_of_length_eq_zero (Nat.le_zero.mp h2)
      subst this
      simp [splitBatchesAux]
    | succ f2 =>
      by_cases hl : l = []
      · subst hl
        simp [splitBatchesAux]
      · have hlen : 0 < l.length := List.length_pos.mpr hl
        have hle : (l.drop n).length ≤ f1 := by
          rw [List.length_drop]
          omega
        have hle2 : (l.drop n).length ≤ f2 := by
          rw [List.length_drop]
          omega
        have hne : l.isEmpty = false := by simp [List.isEmpty_iff, hl]
        simp only [splitBatchesAux, hne, Bool.false_eq_true, if_false]
        rw [ih f2 (l.drop n) hle hle2]

/-- Unfolding equation for `splitBatches` on a nonempty list. -/
lemma splitBatches_eq {n : Nat} (hn : 1 ≤ n) {l : List α} (hl : l ≠ []) :
    splitBatches n l = l.take n :: splitBatches n (l.drop n) := by
  have hlen : 0 < l.length := List.length_pos.mpr hl
  unfold splitBatches
  have h1 : l.length = (l.length - 1) + 1 := by omega
  rw [h1]
  have hne : l.isEmpty = false := by simpa [List.isEmpty_iff] using hl
  simp only [splitBatchesAux, hne, Bool.false_eq_true, if_false]
  rw [splitBatchesAux_fuel hn (l.length - 1) (l.drop n).length (l.drop n)
    (by rw [List.length_drop]; omega) le_rfl]

/-- Concatenating the batches gives back the list (fuel-bounded form). -/
lemma splitBatches_flatten_aux {n : Nat} (hn : 1 ≤ n) :
    ∀ (len : Nat) (l : List α), l.length ≤ len → (splitBatches n l).flatten = l := by
  intro len
  induction len with
  | zero =>
    intro l h
    have : l = [] := List.eq_nil_of_length_eq_zero (Nat.le_zero.mp h)
    subst this
    rfl
  | succ len ih =>
    intro l h
    by_cases hl : l = []
    · subst hl
      rfl
    · have hlen : 0 < l.length := List.length_pos.mpr hl
      rw [splitBatches_eq hn hl, List.flatten_cons,
        ih (l.drop n) (by rw [List.length_drop]; omega)]
      exact List.take_append_drop n l

/-- Concatenating the batches gives back the list. -/
lemma splitBatches_flatten {n : Nat} (hn : 1 ≤ n) (l : List α) :
    (splitBatches n l).flatten = l :=
  splitBatches_flatten_aux hn l.length l le_rfl

/-- Every batch is a nonempty slice of at most `n` elements of the list. -/
lemma mem_splitBatches {n : Nat} (hn : 1 ≤ n) {l b : List α}
    (hb : b ∈ splitBatches n l) : b ≠ [] ∧ b.length ≤ n ∧ b ⊆ l := by
  have main : ∀ (len : Nat) (l : List α), l.length ≤ len → ∀ b ∈ splitBatches n l,
      b ≠ [] ∧ b.length ≤ n ∧ b ⊆ l := by
    intro len
    induction len with
    | zero =>
      intro l h b hb
      have : l = [] := List.eq_nil_of_length_eq_zero (Nat.le_zero.mp h)
      subst this
      simp [splitBatches, splitBatchesAux] at hb
    | succ len ih =>
      intro l h b hb
      by_cases hl : l = []
      · subst hl
        simp [splitBatches, splitBatchesAux] at hb
      · have hlen : 0 < l.length := List.length_pos.mpr hl
        rw [splitBatches_eq hn hl, List.mem_cons] at hb
        rcases hb with hb | hb
        · subst hb
          refine ⟨?_, by simp [List.length_take_le n l], List.take_subset n l⟩
          intro hcontra
          have := congrArg List.length hcontra
          simp only [List.length_take, List.length_nil] at this
          omega
        · obtain ⟨h1, h2, h3⟩ := ih (l.drop n) (by rw [List.length_drop]; omega) b hb
          exact ⟨h1, h2, h3.trans (List.drop_subset n l)⟩
  exact main l.length l le_rfl b hb

/-- The batch list of a nonempty list is nonempty. -/
lemma splitBatches_ne_nil {n : Nat} (hn : 1 ≤ n) {l : List α} (hl : l ≠ []) :
    splitBatches n l ≠ [] := by
  rw [splitBatches_eq hn hl]
  simp

/-- The last batch of a nonempty list ends with the list's last element. -/
lemma splitBatches_getLast {n : Nat} (hn : 1 ≤ n) {l : List α} (hl : l ≠ []) :
    ∃ b, (splitBatches n l).getLast? = some b ∧ b.getLast? = l.getLast? := by
  have main : ∀ (len : Nat) (l : List α), l.length ≤ len → l ≠ [] →
      ∃ b, (splitBatches n l).getLast? = some b ∧ b.getLast? = l.getLast? := by
    intro len
    induction len with
    | zero =>
      intro l h hne
      exact absurd (List.eq_nil_of_length_eq_zero (Nat.le_zero.mp h)) hne
    | succ len ih =>
      intro l h hne
      have hlen : 0 < l.length := List.length_pos.mpr hne
      rw [splitBatches_eq hn hne]
      by_cases hdrop : l.drop n = []
      · refine ⟨l.take n, ?_, ?_⟩
        · rw [hdrop]
          rfl
        · have hlight : l.length ≤ n := by
            have := congrArg List.length hdrop
            simp only [List.length_drop, List.length_nil] at this
            omega
          rw [List.take_of_length_le hlight]
      · obtain ⟨b, hb1, hb2⟩ := ih (l.drop n) (by rw [List.length_drop]; omega) hdrop
        refine ⟨b, ?_, ?_⟩
        · have hne2 : splitBatches n (l.drop n) ≠ [] := splitBatches_ne_nil hn hdrop
          have hs : l.take n :: splitBatches n (l.drop n) =
              [l.take n] ++ splitBatches n (l.drop n) := rfl
          rw [hs, List.getLast?_append_of_ne_nil _ hne2, hb1]
        · rw [hb2]
          conv_rhs => rw [← List.take_append_drop n l]
          rw [List.getLast?_append_of_ne_nil _ hdrop]
  exact main l.length l le_rfl hl

/-! ## Lemmas about the directory phase -/

/-- A file-writing repository call (`make_file` or a text send). -/
def isFileWrite : SVNEvent → Bool
  | SVNEvent.makeFile _ => true
  | SVNEvent.sendText _ => true
  | _ => false

/-- What the `_directoriesToAdd` loop collects: exactly the visited parent
chain minus the directories already in the memo, independent of the
accumulator. -/
lemma mem_dirLoop : ∀ (fuel : Nat) (dir : String) (added acc : List String) (x : String),
    x ∈ dirLoop fuel dir added acc ↔
      x ∈ acc ∨ (x ∈ dirChainList fuel dir ∧ x ∉ added) := by
  intro fuel
  induction fuel with
  | zero => intro dir added acc x; simp [dirLoop, dirChainList]
  | succ fuel ih =>
    intro dir added acc x
    by_cases hstop : dir = "" ∨ dir = "/"
    · simp [dirLoop, dirChainList, hstop]
    · simp only [dirLoop, dirChainList, hstop, ite_false, if_neg]
      rw [ih]
      by_cases hmem : dir ∈ added
      · simp only [hmem, ite_true, if_pos, List.mem_cons]
        constructor
        · rintro (h | h)
          · exact Or.inl h
          · exact Or.inr ⟨Or.inr h.1, h.2⟩
        · rintro (h | ⟨h1 | h1, h2⟩)
          · exact Or.inl h
          · subst h1
            exact absurd hmem h2
          · exact Or.inr ⟨h1, h2⟩
      · simp only [hmem, ite_false, if_neg, List.mem_cons]
        constructor
        · rintro (h | h)
          · rcases h with h | h
            · exact Or.inr ⟨Or.inl h, h ▸ hmem⟩
            · exact Or.inl h
          · exact Or.inr ⟨Or.inr h.1, h.2⟩
        · rintro (h | ⟨h1 | h1, h2⟩)
          · exact Or.inl (Or.inr h)
          · exact Or.inl (Or.inl h1)
          · exact Or.inr ⟨h1, h2⟩

/-- `_addDirectories` extends the memo by exactly the directories it
collects. -/
lemma addDirectoriesOne_added (root userid : String) (st : SVNState) (d : SCCSDelta) :
    (addDirectoriesOne root userid st d).1.addedDirectories =
      st.addedDirectories ++ directoriesToAdd root st.addedDirectories d := by
  unfold addDirectoriesOne
  by_cases h : directoriesToAdd root st.addedDirectories d = [] <;> simp [h]

/-- `_addDirectories` never touches the file set. -/
lemma addDirectoriesOne_files (root userid : String) (st : SVNState) (d : SCCSDelta) :
    (addDirectoriesOne root userid st d).1.files = st.files := by
  unfold addDirectoriesOne
  by_cases h : directoriesToAdd root st.addedDirectories d = [] <;> simp [h]

/-- `makeDirArgs` helper: a transaction header contributes nothing. -/
lemma makeDirArgs_cons_beginTxn (a c : String) (l : List SVNEvent) :
    makeDirArgs (SVNEvent.beginTxn a c :: l) = makeDirArgs l := rfl

/-- `makeDirArgs` distributes over append. -/
lemma makeDirArgs_append (l1 l2 : List SVNEvent) :
    makeDirArgs (l1 ++ l2) = makeDirArgs l1 ++ makeDirArgs l2 :=
  List.filterMap_append ..

/-- `makeDirArgs` of pure `make_dir` events returns their arguments. -/
lemma makeDirArgs_map_makeDir (l : List String) :
    makeDirArgs (l.map SVNEvent.makeDir) = l := by
  induction l with
  | nil => rfl
  | cons a t ih =>
    show a :: makeDirArgs (t.map SVNEvent.makeDir) = a :: t
    rw [ih]

/-- The `make_dir` calls of one `_addDirectories` invocation are exactly the
collected directories. -/
lemma addDirectoriesOne_makeDirArgs (root userid : String) (st : SVNState) (d : SCCSDelta) :
    makeDirArgs (addDirectoriesOne root userid st d).2 =
      directoriesToAdd root st.addedDirectories d := by
  unfold addDirectoriesOne
  by_cases h : directoriesToAdd root st.addedDirectories d = []
  · simp [makeDirArgs, h]
  · simp only [h, Bool.false_eq_true, if_false, ite_false]
    rw [makeDirArgs_append, makeDirArgs_cons_beginTxn, makeDirArgs_map_makeDir]
    simp [makeDirArgs]

/-- `_addDirectories` performs no file writes. -/
lemma addDirectoriesOne_no_fileWrites (root userid : String) (st : SVNState) (d : SCCSDelta) :
    ∀ e ∈ (addDirectoriesOne root userid st d).2, isFileWrite e = false := by
  unfold addDirectoriesOne
  by_cases h : directoriesToAdd root st.addedDirectories d = []
  · simp [h]
  · simp only [h, Bool.false_eq_true, if_false, ite_false]
    intro e he
    simp only [List.mem_cons, List.mem_append, List.mem_map, List.mem_singleton] at he
    rcases he with (he | ⟨a, -, he⟩) | (he | he)
    · subst he; rfl
    · subst he; rfl
    · subst he; rfl
    · simp at he

/-- After `_addDirectories`, every directory of the delta's required parent
chain is in the memo. -/
lemma requiredDirs_subset_addDirectoriesOne (root userid : String) (st : SVNState)
    (d : SCCSDelta) :
    requiredDirs root d ⊆ (addDirectoriesOne root userid st d).1.addedDirectories := by
  intro x hx
  rw [addDirectoriesOne_added]
  by_cases hmem : x ∈ st.addedDirectories
  · exact List.mem_append.mpr (Or.inl hmem)
  · refine List.mem_append.mpr (Or.inr ?_)
    unfold directoriesToAdd
    rw [mem_dirLoop]
    exact Or.inr ⟨hx, hmem⟩

/-- The directory phase only appends to the memo, leaves the file set alone,
and afterwards the whole parent chain of every processed delta is in the
memo. -/
lemma addDirPhase_spec (root userid : String) :
    ∀ (nds : List SCCSDelta) (st : SVNState),
      (∃ newdirs, (addDirPhase root userid st nds).1.addedDirectories =
        st.addedDirectories ++ newdirs) ∧
      (addDirPhase root userid st nds).1.files = st.files ∧
      ∀ d ∈ nds, requiredDirs root d ⊆ (addDirPhase root userid st nds).1.addedDirectories := by
  intro nds
  induction nds with
  | nil =>
    intro st
    exact ⟨⟨[], by simp [addDirPhase]⟩, by simp [addDirPhase], by simp⟩
  | cons d ds ih =>
    intro st
    obtain ⟨⟨newdirs, hnew⟩, hfiles, hreq⟩ := ih (addDirectoriesOne root userid st d).1
    have hshape : addDirPhase root userid st (d :: ds) =
        ((addDirPhase root userid (addDirectoriesOne root userid st d).1 ds).1,
          (addDirectoriesOne root userid st d).2 ++
            (addDirPhase root userid (addDirectoriesOne root userid st d).1 ds).2) := rfl
    rw [hshape]
    refine ⟨⟨directoriesToAdd root st.addedDirectories d ++ newdirs, ?_⟩, ?_, ?_⟩
    · simp only [hnew, addDirectoriesOne_added, List.append_assoc]
    · simp only [hfiles, addDirectoriesOne_files]
    · intro d2 hd2
      rcases List.mem_cons.mp hd2 with h1 | h1
      · subst h1
        intro x hx
        have hx2 := requiredDirs_subset_addDirectoriesOne root userid st d2 hx
        simp only [hnew]
        exact List.mem_append.mpr (Or.inl hx2)
      · exact hreq d2 h1

/-- The file-operations phase never touches the directory memo. -/
lemma fileOpsPhase_added (root : String) :
    ∀ (nds : List SCCSDelta) (st : SVNState),
      (fileOpsPhase root st nds).1.addedDirectories = st.addedDirectories := by
  intro nds
  induction nds with
  | nil => intro st; rfl
  | cons d ds ih =>
    intro st
    show (fileOpsPhase root st (d :: ds)).1.addedDirectories = _
    unfold fileOpsPhase
    by_cases hmem : getRepositoryName root d ∈ st.files
    · simp only [hmem, ite_true, if_pos]
      exact ih st
    · simp only [hmem, ite_false, if_neg]
      exact ih ⟨st.addedDirectories, st.files ++ [getRepositoryName root d]⟩

/-- The file-operations phase performs no `make_dir` calls. -/
lemma fileOpsPhase_no_makeDir (root : String) :
    ∀ (nds : List SCCSDelta) (st : SVNState),
      makeDirArgs (fileOpsPhase root st nds).2 = [] := by
  intro nds
  induction nds with
  | nil => intro st; rfl
  | cons d ds ih =>
    intro st
    unfold fileOpsPhase
    by_cases hmem : getRepositoryName root d ∈ st.files
    · simp only [hmem, ite_true, if_pos]
      show makeDirArgs (SVNEvent.sendText _ :: _) = []
      show makeDirArgs (fileOpsPhase root st ds).2 = []
      exact ih st
    · simp only [hmem, ite_false, if_neg]
      show makeDirArgs (SVNEvent.makeFile _ :: SVNEvent.sendText _ :: _) = []
      show makeDirArgs (fileOpsPhase root
        ⟨st.addedDirectories, st.files ++ [getRepositoryName root d]⟩ ds).2 = []
      exact ih ⟨st.addedDirectories, st.files ++ [getRepositoryName root d]⟩

/-- The directory phase performs no file writes. -/
lemma addDirPhase_no_fileWrites (root userid : String) :
    ∀ (nds : List SCCSDelta) (st : SVNState),
      ∀ e ∈ (addDirPhase root userid st nds).2, isFileWrite e = false := by
  intro nds
  induction nds with
  | nil => intro st e he; simp [addDirPhase] at he
  | cons d ds ih =>
    intro st e he
    have hshape : addDirPhase root userid st (d :: ds) =
        ((addDirPhase root userid (addDirectoriesOne root userid st d).1 ds).1,
          (addDirectoriesOne root userid st d).2 ++
            (addDirPhase root userid (addDirectoriesOne root userid st d).1 ds).2) := rfl
    rw [hshape] at he
    rcases List.mem_append.mp he with h1 | h1
    · exact addDirectoriesOne_no_fileWrites root userid st d e h1
    · exact ih (addDirectoriesOne root userid st d).1 e h1

/-! ## Lemmas about `add` (claims C6, C7) -/

/-- `addAux` is fuel-insensitive once the fuel covers the delta list. -/
lemma addAux_fuel (root userid : String) :
    ∀ fuel1 fuel2 (st : SVNState) (deltas : List SCCSDelta),
      deltas.length ≤ fuel1 → deltas.length ≤ fuel2 →
      addAux root userid fuel1 st deltas = addAux root userid fuel2 st deltas := by
  intro fuel1
  induction fuel1 with
  | zero =>
    intro fuel2 st deltas h1 h2
    have : deltas = [] := List.eq_nil_of_length_eq_zero (Nat.le_zero.mp h1)
    subst this
    cases fuel2 <;> simp [addAux]
  | succ f1 ih =>
    intro fuel2 st deltas h1 h2
    cases fuel2 with
    | zero =>
      have : deltas = [] := List.eq_nil_of_length_eq_zero (Nat.le_zero.mp h2)
      subst this
      simp [addAux]
    | succ f2 =>
      by_cases hl : deltas = []
      · subst hl
        simp [addAux]
      · have hlen : 0 < deltas.length := List.length_pos.mpr hl
        simp only [addAux, hl, ite_false, if_neg]
        rw [ih f2 (fileOpsPhase root
            (addDirPhase root userid st (deltas.take 1000)).1 (deltas.take 1000)).1
          (deltas.drop 1000) (by rw [List.length_drop]; omega)
          (by rw [List.length_drop]; omega)]

/-- Unfolding equation for `add` on a nonempty group. -/
lemma add_eq (root userid : String) (st : SVNState) {deltas : List SCCSDelta}
    (hl : deltas ≠ []) :
    add root userid st deltas =
      (let new_deltas := deltas.take 1000
       let p1 := addDirPhase root userid st new_deltas
       let p2 := fileOpsPhase root p1.1 new_deltas
       let rest := add root userid p2.1 (deltas.drop 1000)
       (rest.1,
         (⟨p1.2, p1.1.addedDirectories, (new_deltas.head!).author, (new_deltas.head!).comment,
           p2.2, (new_deltas.getLast!).date⟩ : BatchTrace) :: rest.2)) := by
  have hlen : 0 < deltas.length := List.length_pos.mpr hl
  unfold add
  have h1 : deltas.length = (deltas.length - 1) + 1 := by omega
  rw [h1]
  simp only [addAux, hl, ite_false, if_neg]
  rw [addAux_fuel root userid (deltas.length - 1) (deltas.drop 1000).length _
    (deltas.drop 1000) (by rw [List.length_drop]; omega) le_rfl]

/-- `add` on the empty list does nothing. -/
lemma add_nil (root userid : String) (st : SVNState) :
    add root userid st [] = (st, []) := rfl

/-- The batch traces of `add` line up one-to-one with the 1000-record slices:
for each batch, the content transaction carries the batch head's author and
comment, is committed with the batch's last record's date, begins only after
the memo holds every directory any record of the batch requires, contains no
directory creation, and the directory transactions before it contain no file
writes. -/
lemma add_spec (root userid : String) :
    ∀ (len : Nat) (deltas : List SCCSDelta) (st : SVNState), deltas.length ≤ len →
      ((add root userid st deltas).2).length = (splitBatches 1000 deltas).length ∧
      ∀ p ∈ ((add root userid st deltas).2).zip (splitBatches 1000 deltas),
        p.1.txnAuthor = (p.2.head!).author ∧
        p.1.txnComment = (p.2.head!).comment ∧
        p.1.commitDate = (p.2.getLast!).date ∧
        (∀ d ∈ p.2, requiredDirs root d ⊆ p.1.memoAtTxn) ∧
        makeDirArgs p.1.fileEvents = [] ∧
        (∀ e ∈ p.1.dirTxns, isFileWrite e = false) := by
  intro len
  induction len with
  | zero =>
    intro deltas st h
    have : deltas = [] := List.eq_nil_of_length_eq_zero (Nat.le_zero.mp h)
    subst this
    simp [add_nil, splitBatches, splitBatchesAux]
  | succ len ih =>
    intro deltas st h
    by_cases hl : deltas = []
    · subst hl
      simp [add_nil, splitBatches, splitBatchesAux]
    · have hlen : 0 < deltas.length := List.length_pos.mpr hl
      rw [add_eq root userid st hl, splitBatches_eq (by omega) hl]
      have hdroplen : (deltas.drop 1000).length ≤ len := by
        rw [List.length_drop]
        omega
      obtain ⟨ihlen, ihmem⟩ := ih (deltas.drop 1000)
        (fileOpsPhase root
          (addDirPhase root userid st (deltas.take 1000)).1 (deltas.take 1000)).1 hdroplen
      constructor
      · simp only [List.length_cons]
        rw [ihlen]
      · intro p hp
        simp only [List.zip_cons_cons, List.mem_cons] at hp
        rcases hp with hp | hp
        · subst hp
          obtain ⟨⟨newdirs, hnew⟩, hfiles, hreq⟩ :=
            addDirPhase_spec root userid (deltas.take 1000) st
          refine ⟨rfl, rfl, rfl, ?_, ?_, ?_⟩
          · exact hreq
          · exact fileOpsPhase_no_makeDir root (deltas.take 1000)
              (addDirPhase root userid st (deltas.take 1000)).1
          · exact addDirPhase_no_fileWrites root userid (deltas.take 1000) st
        · exact ihmem p hp

/-- Over one group, each content transaction is committed with its own
batch's last record's date (the leftover loop variable of line 239). -/
lemma add_commitDates (root userid : String) :
    ∀ (len : Nat) (deltas : List SCCSDelta) (st : SVNState), deltas.length ≤ len →
      ((add root userid st deltas).2).map BatchTrace.commitDate =
        (splitBatches 1000 deltas).map (fun b => (b.getLast!).date) := by
  intro len
  induction len with
  | zero =>
    intro deltas st h
    have : deltas = [] := List.eq_nil_of_length_eq_zero (Nat.le_zero.mp h)
    subst this
    simp [add_nil, splitBatches, splitBatchesAux]
  | succ len ih =>
    intro deltas st h
    by_cases hl : deltas = []
    · subst hl
      simp [add_nil, splitBatches, splitBatchesAux]
    · have hlen : 0 < deltas.length := List.length_pos.mpr hl
      rw [add_eq root userid st hl, splitBatches_eq (by omega) hl]
      simp only [List.map_cons]
      rw [ih (deltas.drop 1000) _ (by rw [List.length_drop]; omega)]

/-- Every record in a group shares the author and comment of the record
before it, hence of the group's head. -/
lemma chain'_const_head :
    ∀ (t : List SCCSDelta) (h : SCCSDelta),
      List.Chain' (fun a b : SCCSDelta => a.author = b.author ∧ a.comment = b.comment)
        (h :: t) →
      ∀ x ∈ h :: t, x.author = h.author ∧ x.comment = h.comment := by
  intro t
  induction t with
  | nil =>
    intro h _ x hx
    simp only [List.mem_singleton] at hx
    simp [hx]
  | cons b t' ih =>
    intro h hchain x hx
    have hhb : h.author = b.author ∧ h.comment = b.comment :=
      (List.chain'_cons.mp hchain).1
    rcases List.mem_cons.mp hx with h1 | h1
    · simp [h1]
    · have := ih b (List.chain'_cons.mp hchain).2 x h1
      exact ⟨this.1.trans hhb.1.symm, this.2.trans hhb.2.symm⟩

/-- Author and comment are constant across every group the grouping step
produces (author/comment equality is required between each appended record
and its predecessor, and equality is transitive). -/
lemma mergeVersions_const_author_comment {versions g : List SCCSDelta}
    (hg : g ∈ mergeVersions versions) :
    ∀ x ∈ g, x.author = (g.head!).author ∧ x.comment = (g.head!).comment := by
  have hchain : List.Chain' (fun a b : SCCSDelta =>
      a.author = b.author ∧ a.comment = b.comment) g := by
    refine mergeVersions_chain ?_ versions g hg
    intro a b hab
    have h := (matchDelta_iff a b).mp hab
    exact ⟨h.1.symm, h.2.1.symm⟩
  cases g with
  | nil => exact fun x hx => absurd hx (List.not_mem_nil x)
  | cons h t =>
    intro x hx
    exact chain'_const_head t h hchain x hx

/-! ## Claim C6 -/

/-- Claim C6: for every group replayed by the applier, each content
transaction's author and comment come from the group's first record
(`new_deltas[0]` of each batch carries the group head's author and comment,
since author and comment are constant across a group), the revision is
committed with the date of the record the commit loop handled last (the
batch's last record), and the final committed date of the group is the
group's last record's timestamp. -/
theorem C6_commit_metadata (root userid : String) (st : SVNState)
    (versions g : List SCCSDelta) (hg : g ∈ mergeVersions versions)
    (bt : BatchTrace) (b : List SCCSDelta)
    (hmem : (bt, b) ∈ ((add root userid st g).2).zip (splitBatches 1000 g)) :
    bt.txnAuthor = (g.head!).author ∧ bt.txnComment = (g.head!).comment ∧
      bt.commitDate = (b.getLast!).date ∧
      ((add root userid st g).2.map BatchTrace.commitDate).getLast? =
        g.getLast?.map SCCSDelta.date := by
  obtain ⟨hlen, hzip⟩ := add_spec root userid g.length g st le_rfl
  obtain ⟨hA, hC, hD, -, -, -⟩ := hzip (bt, b) hmem
  have hb : b ∈ splitBatches 1000 g := (List.of_mem_zip hmem).2
  obtain ⟨hbne, -, hbsub⟩ := mem_splitBatches (by omega) hb
  have hhead : b.head! ∈ g := hbsub (List.head!_mem_self hbne)
  have hconst := mergeVersions_const_author_comment hg b.head! hhead
  refine ⟨hA.trans hconst.1, hC.trans hconst.2, hD, ?_⟩
  have hgne : g ≠ [] := mergeVersions_ne_nil hg
  rw [add_commitDates root userid g.length g st le_rfl, List.getLast?_map]
  obtain ⟨lastb, hlast1, hlast2⟩ := splitBatches_getLast (n := 1000) (by omega) hgne
  rw [hlast1]
  obtain ⟨x, hx⟩ : ∃ x, g.getLast? = some x := by
    cases hgl : g.getLast? with
    | none => exact absurd (List.getLast?_eq_none_iff.mp hgl) hgne
    | some x => exact ⟨x, rfl⟩
  rw [hx]
  show some ((lastb.getLast!).date) = some (x.date)
  rw [List.getLast!_of_getLast? (hlast2.trans hx)]

/-- Two matching records nine seconds apart for the C6 witness: one group,
one batch. -/
def c6a : SCCSDelta := ⟨"/r/p/SCCS/s.a.c", "1.1", "u", 0, "fix"⟩

/-- Second record of the C6 witness group. -/
def c6b : SCCSDelta := ⟨"/r/p/SCCS/s.b.c", "1.1", "u", 9, "fix"⟩

/-- Witness for C6 at a concrete input: the group `[c6a, c6b]` is produced
by the grouping step, its single batch's transaction carries the first
record's author and comment, and is committed with the last record's date. -/
theorem C6_commit_metadata_witness :
    ([c6a, c6b] ∈ mergeVersions [c6a, c6b] ∧
      (((add "/r" "migr" initialState [c6a, c6b]).2).head!,
        (splitBatches 1000 [c6a, c6b]).head!) ∈
        ((add "/r" "migr" initialState [c6a, c6b]).2).zip (splitBatches 1000 [c6a, c6b])) ∧
      (((add "/r" "migr" initialState [c6a, c6b]).2).head!).txnAuthor =
          ([c6a, c6b].head!).author ∧
      (((add "/r" "migr" initialState [c6a, c6b]).2).head!).txnComment =
          ([c6a, c6b].head!).comment ∧
      (((add "/r" "migr" initialState [c6a, c6b]).2).head!).commitDate =
          (((splitBatches 1000 [c6a, c6b]).head!).getLast!).date ∧
      ((add "/r" "migr" initialState [c6a, c6b]).2.map BatchTrace.commitDate).getLast? =
        [c6a, c6b].getLast?.map SCCSDelta.date :=
  ⟨⟨by decide, by decide⟩,
    C6_commit_metadata "/r" "migr" initialState [c6a, c6b] [c6a, c6b] (by decide)
      (((add "/r" "migr" initialState [c6a, c6b]).2).head!)
      ((splitBatches 1000 [c6a, c6b]).head!) (by decide)⟩

/-! ## Claim C7 -/

/-- Claim C7: `add` splits every group into successive, independently
committed batches of at most 1000 records (`propertyUpdate` uses 3000 for
its metadata-only sweep), the slices together are exactly the group; within
every batch, every directory required by any record of the batch is already
in the memo when the batch's content transaction begins (the directory
transactions run and commit first), the content transaction creates no
directories, and the directory transactions write no files. -/
theorem C7_batching_and_directory_order (root userid : String) (st : SVNState)
    (now : Int) (g : List SCCSDelta) (bt : BatchTrace) (b : List SCCSDelta)
    (hmem : (bt, b) ∈ ((add root userid st g).2).zip (splitBatches 1000 g))
    (d : SCCSDelta) (hd : d ∈ b)
    (fnames fb : List String) (hfb : fb ∈ splitBatches 3000 fnames) :
    b.length ≤ 1000 ∧
      (splitBatches 1000 g).flatten = g ∧
      requiredDirs root d ⊆ bt.memoAtTxn ∧
      makeDirArgs bt.fileEvents = [] ∧
      (∀ e ∈ bt.dirTxns, isFileWrite e = false) ∧
      fb.length ≤ 3000 ∧
      (splitBatches 3000 fnames).flatten = fnames ∧
      propertyUpdate userid now fnames =
        ((splitBatches 3000 fnames).map (propertyBatch userid now)).flatten := by
  obtain ⟨-, hzip⟩ := add_spec root userid g.length g st le_rfl
  obtain ⟨-, -, -, hreq, hnofdir, hnofw⟩ := hzip (bt, b) hmem
  have hb : b ∈ splitBatches 1000 g := (List.of_mem_zip hmem).2
  obtain ⟨-, hble, -⟩ := mem_splitBatches (by omega) hb
  obtain ⟨-, hfble, -⟩ := mem_splitBatches (by omega) hfb
  exact ⟨hble, splitBatches_flatten (by omega) g, hreq d hd, hnofdir, hnofw,
    hfble, splitBatches_flatten (by omega) fnames, rfl⟩

/-- A record needing two nested directories, for the C7 witness. -/
def c7d : SCCSDelta := ⟨"/r/p/q/SCCS/s.a.c", "1.1", "u", 0, "m"⟩

/-- Witness for C7 at a concrete input: one batch of one record whose two
parent directories are in the memo when its content transaction begins, and
a one-element filename sweep. -/
theorem C7_batching_and_directory_order_witness :
    ((((add "/r" "migr" initialState [c7d]).2).head!,
        (splitBatches 1000 [c7d]).head!) ∈
          ((add "/r" "migr" initialState [c7d]).2).zip (splitBatches 1000 [c7d]) ∧
      c7d ∈ (splitBatches 1000 [c7d]).head! ∧
      ["/p/a.c"] ∈ splitBatches 3000 ["/p/a.c"]) ∧
      ((splitBatches 1000 [c7d]).head!).length ≤ 1000 ∧
      (splitBatches 1000 [c7d]).flatten = [c7d] ∧
      requiredDirs "/r" c7d ⊆ (((add "/r" "migr" initialState [c7d]).2).head!).memoAtTxn ∧
      makeDirArgs (((add "/r" "migr" initialState [c7d]).2).head!).fileEvents = [] ∧
      (∀ e ∈ (((add "/r" "migr" initialState [c7d]).2).head!).dirTxns,
        isFileWrite e = false) ∧
      (["/p/a.c"] : List String).length ≤ 3000 ∧
      (splitBatches 3000 ["/p/a.c"]).flatten = ["/p/a.c"] ∧
      propertyUpdate "migr" 77 ["/p/a.c"] =
        ((splitBatches 3000 ["/p/a.c"]).map (propertyBatch "migr" 77)).flatten :=
  ⟨⟨by decide, by decide, by decide⟩,
    C7_batching_and_directory_order "/r" "migr" initialState 77 [c7d]
      (((add "/r" "migr" initialState [c7d]).2).head!) ((splitBatches 1000 [c7d]).head!)
      (by decide) c7d (by decide) ["/p/a.c"] ["/p/a.c"] (by decide)⟩

/-! ## Lemmas about `posixpath.dirname` and the parent chain (claim C9) -/

/-- Unpacking the Boolean `goodPath`. -/
lemma goodPath_iff (p : String) : goodPath p = true ↔ p.data.take 2 ≠ ['/', '/'] := by
  simp [goodPath]

/-- A prefix of a list that does not begin with two slashes does not begin
with two slashes. -/
lemma take_two_of_prefix {q l : List Char} (h : q <+: l) (hl : l.take 2 ≠ ['/', '/']) :
    q.take 2 ≠ ['/', '/'] := by
  intro heq
  have hq2 : 2 ≤ q.length := by
    have := congrArg List.length heq
    simp only [List.length_take, List.length_cons, List.length_nil] at this
    omega
  apply hl
  have hq := List.prefix_iff_eq_take.mp h
  calc l.take 2 = (l.take q.length).take 2 := by rw [List.take_take, Nat.min_eq_left hq2]
  _ = q.take 2 := by rw [← hq]
  _ = ['/', '/'] := heq

/-- A list of length at least two whose characters are all slashes starts
with two slashes. -/
lemma take_two_all_slash {m : List Char} (h2 : 2 ≤ m.length)
    (hall : ∀ c ∈ m, c = '/') : m.take 2 = ['/', '/'] := by
  cases m with
  | nil => simp at h2
  | cons c1 t =>
    cases t with
    | nil => simp at h2
    | cons c2 t' =>
      have hc1 : c1 = '/' := hall c1 (by simp)
      have hc2 : c2 = '/' := hall c2 (by simp)
      simp [hc1, hc2]

/-- An all-slash nonempty suffix of the reversal of a good path is exactly
one slash. -/
lemma all_slash_suffix_eq {l a : List Char} (hgood : l.take 2 ≠ ['/', '/'])
    (hasuf : a <:+ l.reverse) (hne : a ≠ [])
    (hall : a.all (fun c => c = '/') = true) : a = ['/'] := by
  have hapre : a.reverse <+: l := by
    have := List.reverse_prefix.mpr hasuf
    rwa [List.reverse_reverse] at this
  have hallmem : ∀ c ∈ a, c = '/' := by
    intro c hc
    exact of_decide_eq_true (List.all_eq_true.mp hall c hc)
  by_cases h2 : 2 ≤ a.length
  · exfalso
    apply take_two_of_prefix hapre hgood
    refine take_two_all_slash (by simpa using h2) ?_
    intro c hc
    exact hallmem c (List.mem_reverse.mp hc)
  · have h1 : a.length = 1 := by
      have : 0 < a.length := List.length_pos.mpr hne
      omega
    cases a with
    | nil => simp at h1
    | cons c t =>
      cases t with
      | nil =>
        have : c = '/' := hallmem c (by simp)
        simp [this]
      | cons c2 t' => simp at h1

/-- The head of a nonempty `dropWhile` result fails the predicate. -/
lemma dropWhile_head_false {α : Type _} {p : α → Bool} :
    ∀ {l : List α} {c : α} {t : List α}, l.dropWhile p = c :: t → p c = false := by
  intro l
  induction l with
  | nil => intro c t h; simp at h
  | cons x xs ih =>
    intro c t h
    rw [List.dropWhile_cons] at h
    by_cases hx : p x = true
    · rw [if_pos hx] at h
      exact ih h
    · rw [if_neg hx] at h
      injection h with h1 h2
      rw [← h1]
      simpa using hx

/-- On a path that is nonempty, not `"/"`, and does not begin with `//`,
`posixpath.dirname` strictly shortens the character list. -/
lemma pyDirnameAux_length_lt (l : List Char) (hgood : l.take 2 ≠ ['/', '/'])
    (hne : l ≠ []) (hslash : l ≠ ['/']) :
    (pyDirnameAux l).length < l.length := by
  unfold pyDirnameAux
  set a := l.reverse.dropWhile (fun c => c ≠ '/') with ha
  have hasuf : a <:+ l.reverse := by
    rw [ha]
    exact List.dropWhile_suffix _
  have hapre : a.reverse <+: l := by
    have := List.reverse_prefix.mpr hasuf
    rwa [List.reverse_reverse] at this
  have halen : a.length ≤ l.length := by
    have := hapre.length_le
    simpa using this
  have hlpos : 0 < l.length := List.length_pos.mpr hne
  by_cases h1 : a = []
  · simp only [h1, ite_true, if_pos, List.length_nil]
    exact hlpos
  · simp only [h1, ite_false, if_neg]
    by_cases h2 : a.all (fun c => c = '/') = true
    · simp only [h2, ite_true, if_pos]
      have haeq : a = ['/'] := all_slash_suffix_eq hgood hasuf h1 h2
      have hl2 : 2 ≤ l.length := by
        rcases Nat.lt_or_ge l.length 2 with hlt | hge
        · exfalso
          have hlen1 : l.length = 1 := by omega
          have : a.reverse = l := hapre.eq_of_length (by simp [haeq, hlen1])
          apply hslash
          rw [← this, haeq]
          rfl
        · exact hge
      simp only [haeq]
      simpa using hl2
    · simp only [h2, Bool.false_eq_true, if_false, ite_false, List.length_reverse]
      have hhead : ∃ t, a = '/' :: t := by
        cases hc : a with
        | nil => exact absurd hc h1
        | cons c t =>
          refine ⟨t, ?_⟩
          have hhd : (fun x => decide (x ≠ '/')) c = false :=
            dropWhile_head_false (l := l.reverse) (c := c) (t := t) (ha.symm.trans hc)
          have hc2 : c = '/' := by simpa using hhd
          rw [hc2]
      obtain ⟨t, hat⟩ := hhead
      have hdw : a.dropWhile (fun c => c = '/') = t.dropWhile (fun c => c = '/') := by
        rw [hat, List.dropWhile_cons]
        simp
      rw [hdw]
      have htlen : (t.dropWhile (fun c => c = '/')).length ≤ t.length :=
        (List.dropWhile_suffix _).length_le
      have : t.length + 1 = a.length := by simp [hat]
      omega

/-- `posixpath.dirname` preserves not beginning with two slashes. -/
lemma pyDirnameAux_good (l : List Char) (hgood : l.take 2 ≠ ['/', '/']) :
    (pyDirnameAux l).take 2 ≠ ['/', '/'] := by
  unfold pyDirnameAux
  set a := l.reverse.dropWhile (fun c => c ≠ '/') with ha
  have hasuf : a <:+ l.reverse := by
    rw [ha]
    exact List.dropWhile_suffix _
  by_cases h1 : a = []
  · simp only [h1, ite_true, if_pos]
    intro heq
    simp at heq
  · simp only [h1, ite_false, if_neg]
    by_cases h2 : a.all (fun c => c = '/') = true
    · simp only [h2, ite_true, if_pos]
      have haeq : a = ['/'] := all_slash_suffix_eq hgood hasuf h1 h2
      rw [haeq]
      intro heq
      have := congrArg List.length heq
      simp at this
    · simp only [h2, ite_false, if_neg]
      have hsuf2 : a.dropWhile (fun c => c = '/') <:+ l.reverse :=
        (List.dropWhile_suffix _).trans hasuf
      have hpre : (a.dropWhile (fun c => c = '/')).reverse <+: l := by
        have := List.reverse_prefix.mpr hsuf2
        rwa [List.reverse_reverse] at this
      exact take_two_of_prefix hpre hgood

/-- String-level form of `pyDirnameAux_length_lt`. -/
lemma pyDirname_length_lt {p : String} (hgood : goodPath p = true) (hne : p ≠ "")
    (hslash : p ≠ "/") : (pyDirname p).length < p.length := by
  have h1 : p.data ≠ [] := by
    intro h
    exact hne (by cases p; simp_all)
  have h2 : p.data ≠ ['/'] := by
    intro h
    exact hslash (by cases p; simp_all)
  exact pyDirnameAux_length_lt p.data ((goodPath_iff p).mp hgood) h1 h2

/-- String-level form of `pyDirnameAux_good`. -/
lemma goodPath_pyDirname {p : String} (hgood : goodPath p = true) :
    goodPath (pyDirname p) = true :=
  (goodPath_iff (pyDirname p)).mpr (pyDirnameAux_good p.data ((goodPath_iff p).mp hgood))

/-- Every directory the `_directoriesToAdd` loop visits is at most as long
as the starting directory. -/
lemma dirChainList_length_le :
    ∀ (fuel : Nat) (dir : String), goodPath dir = true →
      ∀ x ∈ dirChainList fuel dir, x.length ≤ dir.length := by
  intro fuel
  induction fuel with
  | zero => intro dir _ x hx; simp [dirChainList] at hx
  | succ fuel ih =>
    intro dir hgood x hx
    by_cases hstop : dir = "" ∨ dir = "/"
    · simp [dirChainList, hstop] at hx
    · simp only [dirChainList, hstop, ite_false, if_neg, List.mem_cons] at hx
      rcases hx with hx | hx
      · simp [hx]
      · push_neg at hstop
        have hlt := pyDirname_length_lt hgood hstop.1 hstop.2
        have := ih (pyDirname dir) (goodPath_pyDirname hgood) x hx
        omega

/-- On a good path the visited parent chain never repeats a directory (each
step strictly shortens the path). -/
lemma dirChainList_nodup :
    ∀ (fuel : Nat) (dir : String), goodPath dir = true →
      (dirChainList fuel dir).Nodup := by
  intro fuel
  induction fuel with
  | zero => intro dir _; simp [dirChainList]
  | succ fuel ih =>
    intro dir hgood
    by_cases hstop : dir = "" ∨ dir = "/"
    · simp [dirChainList, hstop]
    · simp only [dirChainList, hstop, ite_false, if_neg]
      refine List.Nodup.cons ?_ (ih (pyDirname dir) (goodPath_pyDirname hgood))
      intro hmem
      push_neg at hstop
      have hlt := pyDirname_length_lt hgood hstop.1 hstop.2
      have := dirChainList_length_le fuel (pyDirname dir) (goodPath_pyDirname hgood)
        dir hmem
      omega

/-- The collection loop never collects a directory twice. -/
lemma dirLoop_nodup :
    ∀ (fuel : Nat) (dir : String) (added acc : List String),
      (dirChainList fuel dir).Nodup → acc.Nodup →
      (∀ x ∈ acc, x ∉ dirChainList fuel dir) →
      (dirLoop fuel dir added acc).Nodup := by
  intro fuel
  induction fuel with
  | zero => intro dir added acc _ hacc _; simpa [dirLoop] using hacc
  | succ fuel ih =>
    intro dir added acc hchain hacc hdisj
    by_cases hstop : dir = "" ∨ dir = "/"
    · simpa [dirLoop, hstop] using hacc
    · simp only [dirLoop, hstop, ite_false, if_neg]
      simp only [dirChainList, hstop, ite_false, if_neg] at hchain hdisj
      have hchain2 : (dirChainList fuel (pyDirname dir)).Nodup :=
        (List.nodup_cons.mp hchain).2
      have hdirtail : dir ∉ dirChainList fuel (pyDirname dir) :=
        (List.nodup_cons.mp hchain).1
      by_cases hmem : dir ∈ added
      · simp only [hmem, ite_true, if_pos]
        refine ih (pyDirname dir) added acc hchain2 hacc ?_
        intro x hx
        have := hdisj x hx
        simp only [List.mem_cons, not_or] at this
        exact this.2
      · simp only [hmem, ite_false, if_neg]
        refine ih (pyDirname dir) added (dir :: acc) hchain2 ?_ ?_
        · refine List.Nodup.cons ?_ hacc
          intro hd
          have := hdisj dir hd
          simp at this
        · intro x hx
          rcases List.mem_cons.mp hx with hx | hx
          · subst hx
            exact hdirtail
          · have := hdisj x hx
            simp only [List.mem_cons, not_or] at this
            exact this.2

/-- The directories one `_addDirectories` call creates are pairwise
distinct. -/
lemma directoriesToAdd_nodup (root : String) (added : List String) (d : SCCSDelta)
    (hgood : goodPath (getDirectory root d) = true) :
    (directoriesToAdd root added d).Nodup := by
  unfold directoriesToAdd
  exact dirLoop_nodup _ _ added []
    (dirChainList_nodup _ _ hgood) List.nodup_nil (by simp)

/-- The directories one `_addDirectories` call creates are all new. -/
lemma directoriesToAdd_not_mem (root : String) (added : List String) (d : SCCSDelta) :
    ∀ x ∈ directoriesToAdd root added d, x ∉ added := by
  intro x hx
  unfold directoriesToAdd at hx
  rw [mem_dirLoop] at hx
  rcases hx with hx | hx
  · simp at hx
  · exact hx.2

/-- The directory-creation discipline of a computation step: the memo grows
by exactly the `make_dir` calls issued, those calls are pairwise distinct,
and none of them repeats a directory already in the memo. -/
def DirStep (st st' : SVNState) (evs : List SVNEvent) : Prop :=
  st'.addedDirectories = st.addedDirectories ++ makeDirArgs evs ∧
    (makeDirArgs evs).Nodup ∧
    ∀ x ∈ makeDirArgs evs, x ∉ st.addedDirectories

/-- A step that creates no directories and keeps the memo satisfies the
discipline. -/
lemma DirStep.neutral {st st' : SVNState} {evs : List SVNEvent}
    (h1 : makeDirArgs evs = [])
    (h2 : st'.addedDirectories = st.addedDirectories) : DirStep st st' evs := by
  refine ⟨?_, ?_, ?_⟩ <;> simp [h1, h2]

/-- The discipline composes sequentially. -/
lemma DirStep.comp {st st1 st2 : SVNState} {e1 e2 : List SVNEvent}
    (h1 : DirStep st st1 e1) (h2 : DirStep st1 st2 e2) :
    DirStep st st2 (e1 ++ e2) := by
  obtain ⟨ha1, hn1, hd1⟩ := h1
  obtain ⟨ha2, hn2, hd2⟩ := h2
  refine ⟨?_, ?_, ?_⟩
  · rw [ha2, ha1, makeDirArgs_append, List.append_assoc]
  · rw [makeDirArgs_append]
    refine List.Nodup.append hn1 hn2 ?_
    intro x hx1 hx2
    have := hd2 x hx2
    rw [ha1] at this
    exact this (List.mem_append.mpr (Or.inr hx1))
  · rw [makeDirArgs_append]
    intro x hx
    rcases List.mem_append.mp hx with hx | hx
    · exact hd1 x hx
    · have := hd2 x hx
      rw [ha1] at this
      intro hcontra
      exact this (List.mem_append.mpr (Or.inl hcontra))

/-- One `_addDirectories` call obeys the discipline. -/
lemma addDirectoriesOne_DirStep (root userid : String) (st : SVNState) (d : SCCSDelta)
    (hgood : goodPath (getDirectory root d) = true) :
    DirStep st (addDirectoriesOne root userid st d).1 (addDirectoriesOne root userid st d).2 := by
  refine ⟨?_, ?_, ?_⟩
  · rw [addDirectoriesOne_added, addDirectoriesOne_makeDirArgs]
  · rw [addDirectoriesOne_makeDirArgs]
    exact directoriesToAdd_nodup root st.addedDirectories d hgood
  · rw [addDirectoriesOne_makeDirArgs]
    exact directoriesToAdd_not_mem root st.addedDirectories d

/-- The whole directory phase of a batch obeys the discipline. -/
lemma addDirPhase_DirStep (root userid : String) :
    ∀ (nds : List SCCSDelta) (st : SVNState),
      (∀ d ∈ nds, goodPath (getDirectory root d) = true) →
      DirStep st (addDirPhase root userid st nds).1 (addDirPhase root userid st nds).2 := by
  intro nds
  induction nds with
  | nil =>
    intro st _
    exact DirStep.neutral (by simp [addDirPhase, makeDirArgs]) (by simp [addDirPhase])
  | cons d ds ih =>
    intro st hgood
    have hshape : addDirPhase root userid st (d :: ds) =
        ((addDirPhase root userid (addDirectoriesOne root userid st d).1 ds).1,
          (addDirectoriesOne root userid st d).2 ++
            (addDirPhase root userid (addDirectoriesOne root userid st d).1 ds).2) := rfl
    rw [hshape]
    exact DirStep.comp
      (addDirectoriesOne_DirStep root userid st d (hgood d (by simp)))
      (ih (addDirectoriesOne root userid st d).1 (fun d2 hd2 => hgood d2 (by simp [hd2])))

/-- The file-operations phase obeys the discipline (it creates no
directories). -/
lemma fileOpsPhase_DirStep (root : String) (nds : List SCCSDelta) (st : SVNState) :
    DirStep st (fileOpsPhase root st nds).1 (fileOpsPhase root st nds).2 :=
  DirStep.neutral (fileOpsPhase_no_makeDir root nds st) (fileOpsPhase_added root nds st)

/-- A batch's full event list obeys the discipline whenever its directory
transactions do and its content transaction creates no directories. -/
lemma DirStep_batchEvents (st st1 st2 : SVNState) (bt : BatchTrace)
    (h1 : DirStep st st1 bt.dirTxns)
    (h2 : makeDirArgs bt.fileEvents = [])
    (h3 : st2.addedDirectories = st1.addedDirectories) :
    DirStep st st2 bt.events := by
  have e1 : DirStep st1 st2 (SVNEvent.beginTxn bt.txnAuthor bt.txnComment :: bt.fileEvents) :=
    DirStep.neutral (by rw [makeDirArgs_cons_beginTxn, h2]) h3
  have e2 : DirStep st2 st2 [SVNEvent.commitTxn bt.commitDate] :=
    DirStep.neutral rfl rfl
  exact DirStep.comp (DirStep.comp h1 e1) e2

/-- `add` obeys the discipline over the flattened events of its batches. -/
lemma add_DirStep (root userid : String) :
    ∀ (len : Nat) (deltas : List SCCSDelta) (st : SVNState), deltas.length ≤ len →
      (∀ d ∈ deltas, goodPath (getDirectory root d) = true) →
      DirStep st (add root userid st deltas).1
        (((add root userid st deltas).2.map BatchTrace.events).flatten) := by
  intro len
  induction len with
  | zero =>
    intro deltas st h _
    have : deltas = [] := List.eq_nil_of_length_eq_zero (Nat.le_zero.mp h)
    subst this
    exact DirStep.neutral (by simp [add_nil, makeDirArgs]) (by simp [add_nil])
  | succ len ih =>
    intro deltas st h hgood
    by_cases hl : deltas = []
    · subst hl
      exact DirStep.neutral (by simp [add_nil, makeDirArgs]) (by simp [add_nil])
    · have hlen : 0 < deltas.length := List.length_pos.mpr hl
      rw [add_eq root userid st hl]
      simp only [List.map_cons, List.flatten_cons]
      have hgoodtake : ∀ d ∈ deltas.take 1000, goodPath (getDirectory root d) = true :=
        fun d hd => hgood d (List.take_subset 1000 deltas hd)
      have hgooddrop : ∀ d ∈ deltas.drop 1000, goodPath (getDirectory root d) = true :=
        fun d hd => hgood d (List.drop_subset 1000 deltas hd)
      have hstep1 : DirStep st
          (fileOpsPhase root (addDirPhase root userid st (deltas.take 1000)).1
            (deltas.take 1000)).1
          (BatchTrace.events
            ⟨(addDirPhase root userid st (deltas.take 1000)).2,
              (addDirPhase root userid st (deltas.take 1000)).1.addedDirectories,
              ((deltas.take 1000).head!).author, ((deltas.take 1000).head!).comment,
              (fileOpsPhase root (addDirPhase root userid st (deltas.take 1000)).1
                (deltas.take 1000)).2,
              ((deltas.take 1000).getLast!).date⟩) := by
        refine DirStep_batchEvents st
          (addDirPhase root userid st (deltas.take 1000)).1
          (fileOpsPhase root (addDirPhase root userid st (deltas.take 1000)).1
            (deltas.take 1000)).1 _ ?_ ?_ ?_
        · exact addDirPhase_DirStep root userid (deltas.take 1000) st hgoodtake
        · exact fileOpsPhase_no_makeDir root (deltas.take 1000)
            (addDirPhase root userid st (deltas.take 1000)).1
        · exact fileOpsPhase_added root (deltas.take 1000)
            (addDirPhase root userid st (deltas.take 1000)).1
      have hstep2 := ih (deltas.drop 1000)
        (fileOpsPhase root (addDirPhase root userid st (deltas.take 1000)).1
          (deltas.take 1000)).1
        (by rw [List.length_drop]; omega) hgooddrop
      exact DirStep.comp hstep1 hstep2

/-- The whole group-replay loop obeys the discipline. -/
lemma runAdds_DirStep (root userid : String) :
    ∀ (groups : List (List SCCSDelta)) (st : SVNState),
      (∀ g ∈ groups, ∀ d ∈ g, goodPath (getDirectory root d) = true) →
      DirStep st (runAdds root userid st groups).1
        (((runAdds root userid st groups).2.map BatchTrace.events).flatten) := by
  intro groups
  induction groups with
  | nil =>
    intro st _
    exact DirStep.neutral (by simp [runAdds, makeDirArgs]) (by simp [runAdds])
  | cons g gs ih =>
    intro st hgood
    have hshape : runAdds root userid st (g :: gs) =
        ((runAdds root userid (add root userid st g).1 gs).1,
          (add root userid st g).2 ++ (runAdds root userid (add root userid st g).1 gs).2) :=
      rfl
    rw [hshape]
    simp only [List.map_append, List.flatten_append]
    exact DirStep.comp
      (add_DirStep root userid g.length g st le_rfl (hgood g (by simp)))
      (ih (add root userid st g).1 (fun g2 hg2 => hgood g2 (by simp [hg2])))

/-- If no single event is a `make_dir`, the trace has no `make_dir` calls. -/
lemma makeDirArgs_eq_nil {evs : List SVNEvent}
    (h : ∀ e ∈ evs, makeDirArgs [e] = []) : makeDirArgs evs = [] := by
  induction evs with
  | nil => rfl
  | cons e t ih =>
    have he := h e (by simp)
    have ht := ih (fun e2 he2 => h e2 (by simp [he2]))
    show ([e] ++ t).filterMap _ = []
    rw [List.filterMap_append]
    show makeDirArgs [e] ++ makeDirArgs t = []
    rw [he, ht]
    rfl

/-- The property sweep performs no `make_dir` calls. -/
lemma makeDirArgs_propertyUpdate (userid : String) (now : Int) (filenames : List String) :
    makeDirArgs (propertyUpdate userid now filenames) = [] := by
  refine makeDirArgs_eq_nil ?_
  intro e he
  unfold propertyUpdate at he
  rw [List.mem_flatten] at he
  obtain ⟨l, hl, hel⟩ := he
  rw [List.mem_map] at hl
  obtain ⟨b, -, hb⟩ := hl
  subst hb
  unfold propertyBatch at hel
  rcases List.mem_append.mp hel with h1 | h1
  · rcases List.mem_cons.mp h1 with h1 | h1
    · subst h1
      rfl
    · rw [List.mem_flatten] at h1
      obtain ⟨l2, hl2, hel2⟩ := h1
      rw [List.mem_map] at hl2
      obtain ⟨fn, -, hfn⟩ := hl2
      subst hfn
      by_cases ht : isTextFilename fn
      · simp only [ht, ite_true, if_pos] at hel2
        rcases List.mem_cons.mp hel2 with h2 | h2
        · subst h2
          rfl
        · simp only [List.mem_singleton] at h2
          subst h2
          rfl
      · simp [ht] at hel2
  · simp only [List.mem_singleton] at h1
    subst h1
    rfl

/-- The keyword sweep performs no `make_dir` calls. -/
lemma makeDirArgs_idKeyUpdate (root userid : String) (contents : SCCSDelta → String)
    (deltas : List SCCSDelta) :
    makeDirArgs (idKeyUpdate root userid contents deltas) = [] := by
  refine makeDirArgs_eq_nil ?_
  intro e he
  unfold idKeyUpdate at he
  rw [List.mem_flatten] at he
  obtain ⟨l, hl, hel⟩ := he
  rw [List.mem_map] at hl
  obtain ⟨b, -, hb⟩ := hl
  subst hb
  unfold idKeyBatch at hel
  rcases List.mem_append.mp hel with h1 | h1
  · rcases List.mem_cons.mp h1 with h1 | h1
    · subst h1
      rfl
    · rw [List.mem_flatten] at h1
      obtain ⟨l2, hl2, hel2⟩ := h1
      rw [List.mem_map] at hl2
      obtain ⟨dl, -, hdl⟩ := hl2
      subst hdl
      by_cases ht : isTextFilename dl.getFilename
      · simp only [ht, ite_true, if_pos] at hel2
        split at hel2
        · simp only [List.mem_singleton] at hel2
          subst hel2
          rfl
        · simp at hel2
      · simp [ht] at hel2
  · simp only [List.mem_singleton] at h1
    subst h1
    rfl

/-! ## Claim C9 -/

/-- Claim C9: over one whole run, every target directory is created at most
once.  The `make_dir` calls of the full run trace have pairwise distinct
directory arguments, and never name a directory already in the initial memo
(the pre-seeded `"/"`): each created directory enters the process-wide
`addedDirectories` memo, `_directoriesToAdd` skips everything in the memo,
and the two post-pass sweeps create no directories at all.  The `goodPath`
hypothesis excludes paths whose parent chain begins with `//`, on which the
Python `while` loop of `_directoriesToAdd` never terminates. -/
theorem C9_directory_creation_once (root userid : String) (now : Int)
    (contents : SCCSDelta → String) (walked : List SCCSDelta)
    (hgood : ∀ d ∈ walked, goodPath (getDirectory root d) = true) :
    (makeDirArgs (runEvents root userid now contents walked)).Nodup ∧
      ∀ x ∈ makeDirArgs (runEvents root userid now contents walked),
        x ∉ initialState.addedDirectories := by
  by_cases hempty : (sortVersions walked).length = 0
  · have hnil : runEvents root userid now contents walked = [] := by
      unfold runEvents run
      simp [hempty]
    rw [hnil]
    exact ⟨List.nodup_nil, by simp [makeDirArgs]⟩
  · have hrev : runEvents root userid now contents walked =
        (((runAdds root userid initialState (mergeVersions (sortVersions walked))).2).map
            BatchTrace.events).flatten
          ++ propertyUpdate userid now
              ((buildFilenames root (sortVersions walked)).map Prod.fst)
          ++ idKeyUpdate root userid contents
              ((buildFilenames root (sortVersions walked)).map Prod.snd) := by
      unfold runEvents run
      simp [hempty]
    rw [hrev, makeDirArgs_append, makeDirArgs_append, makeDirArgs_propertyUpdate,
      makeDirArgs_idKeyUpdate]
    simp only [List.append_nil]
    have hgood2 : ∀ g ∈ mergeVersions (sortVersions walked), ∀ d ∈ g,
        goodPath (getDirectory root d) = true := by
      intro g hg d hd
      apply hgood
      have hmem := mem_of_mem_mergeVersions hg hd
      exact (List.mem_insertionSort deltaLE).mp hmem
    obtain ⟨-, hn, hd⟩ := runAdds_DirStep root userid
      (mergeVersions (sortVersions walked)) initialState hgood2
    exact ⟨hn, hd⟩

/-- First C9 witness record: group one, directory `/p`. -/
def c9w1 : SCCSDelta := ⟨"/r/p/SCCS/s.f1.c", "1.1", "u", 0, "m1"⟩

/-- Second C9 witness record: a separate group 100 seconds later, touching
the same directory `/p`. -/
def c9w2 : SCCSDelta := ⟨"/r/p/SCCS/s.f2.c", "1.1", "u", 100, "m2"⟩

/-- Witness for C9 at a concrete run: two groups need the same parent
directory `/p`, and the run trace contains exactly one `make_dir` for it
(the `make_dir` arguments are duplicate-free and avoid the seeded `"/"`). -/
theorem C9_directory_creation_once_witness :
    (∀ d ∈ [c9w1, c9w2], goodPath (getDirectory "/r" d) = true) ∧
      (makeDirArgs (runEvents "/r" "migr" 999 (fun _ => "") [c9w1, c9w2])).Nodup ∧
      ∀ x ∈ makeDirArgs (runEvents "/r" "migr" 999 (fun _ => "") [c9w1, c9w2]),
        x ∉ initialState.addedDirectories :=
  ⟨by decide,
    C9_directory_creation_once "/r" "migr" 999 (fun _ => "") [c9w1, c9w2] (by decide)⟩
